import Mathlib

/-!
Verification development for the GSDMM Movie Group Process implementation
(`gsdmm/mgp.py`): a collapsed Gibbs sampler for the Dirichlet Multinomial
Mixture model over short documents.

The embedding below follows the Python source closely:

* tokens are natural numbers (opaque identifiers);
* a Python dict used as a sparse word-count map becomes an insertion-ordered
  association list `WMap` with the exact dict operations the source performs
  (membership test, `get` with default, item assignment, `del`);
* `m_z`, `n_z` are lists of integers, `n_z_w` a list of `WMap`s, `d_z` the
  assignment vector, exactly the locals of `fit`;
* float arithmetic is modelled over the reals, extended with `EReal` where the
  source can produce an infinity: `log` without a positivity guard (line 102 of
  the source) is `npLog`, which is `⊥` on nonpositive arguments (numpy's
  `log 0 = -inf`; a negative argument would give NaN, which `EReal` cannot
  represent — no theorem below exercises that case), and `exp` is `eexp` with
  `eexp ⊥ = 0`, `eexp ⊤ = ⊤`;
* `numpy.random.multinomial(1, p)` returns a one-hot vector of length
  `len(p)`; the index of its single nonzero entry is modelled by `r % len p`
  where `r` is the value drawn from an external random stream `rng : ℕ → ℕ`.
  On an empty `p` the comprehension in `_sample` is empty and indexing `[0]`
  raises `IndexError`; this is the only exception the model can raise.
-/

/-- A Python dict from token to count: an insertion-ordered association list.
Keys are unique in every dict the program builds. -/
abbrev WMap : Type := List (ℕ × ℤ)

/-- Lookup of a key, returning the value at its first occurrence
(Python dict lookup; keys are unique in practice). -/
def dictLookup : WMap → ℕ → Option ℤ
  | [], _ => none
  | (k, v) :: rest, w => if k = w then some v else dictLookup rest w

/-- Python `d.get(w, fallback)`. -/
def dictGetD (d : WMap) (w : ℕ) (fallback : ℤ) : ℤ :=
  (dictLookup d w).getD fallback

/-- Python `w in d`. -/
def dictContains (d : WMap) (w : ℕ) : Bool :=
  (dictLookup d w).isSome

/-- Python `d[w] = v`: overwrite in place when the key is present (keeping its
position), otherwise append the new entry at the end (dict insertion order). -/
def dictSet : WMap → ℕ → ℤ → WMap
  | [], w, v => [(w, v)]
  | (k, c) :: rest, w, v => if k = w then (w, v) :: rest else (k, c) :: dictSet rest w v

/-- Python `del d[w]`. -/
def dictDel : WMap → ℕ → WMap
  | [], _ => []
  | (k, c) :: rest, w => if k = w then dictDel rest w else (k, c) :: dictDel rest w

/-- Lines 73-76 and 123-126 of the source, one word:
`if word not in n_z_w[z]: n_z_w[z][word] = 0` followed by
`n_z_w[z][word] += 1`. -/
def addWord (d : WMap) (w : ℕ) : WMap :=
  let d1 := if dictContains d w then d else dictSet d w 0
  dictSet d1 w (dictGetD d1 w 0 + 1)

/-- Lines 89-94 of the source, one word: `n_z_w[z_old][word] -= 1` followed by
`if n_z_w[z_old][word] == 0: del n_z_w[z_old][word]`.  Python raises `KeyError`
when the word is absent; every call site removes a document that was previously
added under the same label, so the word is always present there.  The read is
modelled with default `0` (an absent word would leave a `-1` entry). -/
def removeWord (d : WMap) (w : ℕ) : WMap :=
  let d1 := dictSet d w (dictGetD d w 0 - 1)
  if dictGetD d1 w 0 = 0 then dictDel d1 w else d1

/-- The `for word in doc` increment loop (lines 73-76 / 123-126). -/
def docAddWords (d : WMap) (doc : List ℕ) : WMap :=
  doc.foldl addWord d

/-- The `for word in doc` decrement loop (lines 89-94). -/
def docRemoveWords (d : WMap) (doc : List ℕ) : WMap :=
  doc.foldl removeWord d

/-- Sum of all stored counts of a word-count dict. -/
def wsum (d : WMap) : ℤ :=
  (d.map Prod.snd).sum

/-- The keys of the dict are pairwise distinct (true of every Python dict). -/
def keysND (d : WMap) : Prop :=
  (d.map Prod.fst).Nodup

/-- Every stored entry is positive: the sparsity invariant of the spec
(zero-count entries are deleted, counts never go negative). -/
def mapPos (d : WMap) : Prop :=
  ∀ p ∈ d, 1 ≤ p.2

/-- Two dicts are equal as Python dicts: same keys, same values
(Python `==` on dicts ignores insertion order). -/
def dictEquiv (d d' : WMap) : Prop :=
  ∀ w, dictLookup d w = dictLookup d' w

/-- The unguarded `log` of line 102 (`lD1 = log(D - 1 + K * alpha)`): numpy
`log` evaluates to `-inf` at `0`, modelled as `⊥`.  (numpy would give NaN on a
negative argument, which `EReal` cannot represent; no theorem below applies
`npLog` to a negative number.) -/
noncomputable def npLog (x : ℝ) : EReal := if 0 < x then ((Real.log x : ℝ) : EReal) else ⊥

/-- The guarded logarithms of lines 100, 108, 109: `log(x) if x > 0 else 0`. -/
noncomputable def safeLog (x : ℝ) : ℝ := if 0 < x then Real.log x else 0

/-- Exponential on extended reals (line 110 applies `exp` to a float that is finite
or `+inf`): `exp (-inf) = 0` and `exp (+inf) = +inf` as in numpy. -/
noncomputable def eexp (x : EReal) : EReal :=
  if x = ⊥ then 0 else if x = ⊤ then ⊤ else ((Real.exp x.toReal : ℝ) : EReal)

/-- Lines 104-105: `for word in doc: lN2 += n_z_w[label].get(word, 0) + beta`.
The accumulator is a plain linear sum of the dict counts plus `beta`. -/
def lN2loop (d : WMap) (beta : ℝ) (doc : List ℕ) : ℝ :=
  doc.foldl (fun acc w => acc + ((dictGetD d w 0 : ℝ) + beta)) 0

/-- Lines 106-107: `for j in range(len(doc)): lD2 += n_z[label] + V * beta + j - 1`. -/
def lD2loop (n : ℤ) (V : ℕ) (beta : ℝ) (L : ℕ) : ℝ :=
  (List.range L).foldl (fun (acc : ℝ) (j : ℕ) => acc + ((n : ℝ) + (V : ℝ) * beta + (j : ℝ) - 1)) 0

/-- The mutable state of `fit` (lines 59-62): the assignment vector and the
three statistics (documents per cluster, tokens per cluster, sparse word
counts per cluster). -/
structure FitState where
  d_z : List ℕ
  m_z : List ℤ
  n_z : List ℤ
  n_z_w : List WMap
  deriving DecidableEq

/-- Lines 120-126 without the `d_z` write: increment `m_z[z]`, add the document
length to `n_z[z]`, fold the word-increment loop into `n_z_w[z]`.  (Identical
code appears at lines 70-76 during cluster initialization.) -/
def statsAdd (st : FitState) (doc : List ℕ) (z : ℕ) : FitState :=
  { st with
    m_z := st.m_z.set z (st.m_z.getD z 0 + 1)
    n_z := st.n_z.set z (st.n_z.getD z 0 + (doc.length : ℤ))
    n_z_w := st.n_z_w.set z (docAddWords (st.n_z_w.getD z []) doc) }

/-- Lines 86-94: decrement `m_z[z]`, subtract the document length from
`n_z[z]`, fold the word-decrement loop into `n_z_w[z]`. -/
def statsRemove (st : FitState) (doc : List ℕ) (z : ℕ) : FitState :=
  { st with
    m_z := st.m_z.set z (st.m_z.getD z 0 - 1)
    n_z := st.n_z.set z (st.n_z.getD z 0 - (doc.length : ℤ))
    n_z_w := st.n_z_w.set z (docRemoveWords (st.n_z_w.getD z []) doc) }

/-- The only exception the model raises: `_sample` indexes `[0]` into the list
of nonzero positions of the one-hot draw, which is empty when `p` is empty. -/
inductive FitErr where
  | indexError
  deriving DecidableEq

/-- The static method `_sample(p)` (lines 37-46): draw a one-hot vector from
`multinomial(1, p)` and return the index of its nonzero entry.  The one-hot
vector has length `len(p)`; which entry is hot is random, modelled by the
externally supplied draw `r`, reduced mod `len(p)`.  On an empty `p` the
returned vector is empty, the comprehension produces `[]`, and `[0]` raises
`IndexError`.  (numpy also validates `p` and can raise `ValueError` on invalid
probability vectors; no claim below depends on that path.) -/
def sample (r : ℕ) (p : List EReal) : Except FitErr ℕ :=
  if p.length = 0 then .error .indexError else .ok (r % p.length)

/-- Line 68: the uniform vector `[1.0 / K for _ in range(K)]`.  For `K = 0`
the comprehension is empty and the division is never evaluated. -/
noncomputable def uniformP (K : ℕ) : List EReal :=
  (List.range K).map (fun _ => (((1 : ℝ) / (K : ℝ)) : EReal))

/-- Lines 97-110: the per-label weight vector `p`.  For each `label` in
`range(K)`:
`n1 = m_z[label] + alpha`, `lN1 = log(n1) if n1 > 0 else 0`,
`lD1 = log(D - 1 + K * alpha)` (no guard),
`lN2` and `lD2` are the linear sums of `lN2loop` / `lD2loop`, each replaced by
its guarded logarithm, and `p[label] = exp(lN1 - lD1 + lN2 - lD2)`. -/
noncomputable def computeP (D K : ℕ) (alpha beta : ℝ) (V : ℕ) (st : FitState)
    (doc : List ℕ) : List EReal :=
  (List.range K).map (fun label =>
    let n1 : ℝ := (st.m_z.getD label 0 : ℝ) + alpha
    let lN1 : ℝ := if 0 < n1 then Real.log n1 else 0
    let lD1 : EReal := npLog ((D : ℝ) - 1 + (K : ℝ) * alpha)
    let lN2 : ℝ := safeLog (lN2loop (st.n_z_w.getD label []) beta doc)
    let lD2 : ℝ := safeLog (lD2loop (st.n_z.getD label 0) V beta doc.length)
    eexp ((((lN1 : EReal) - lD1) + (lN2 : EReal)) - (lD2 : EReal)))

/-- Lines 112-114: `pnorm = sum(p)` followed by
`z_new = self._sample([pp / pnorm for pp in p])`.  There is no check on
`pnorm` before the division.  `EReal` division is Mathlib's
(`x / 0 = 0`, `⊤ / ⊤ = 0`); numpy floats would instead produce NaN or `inf`
warnings on those inputs — no claim below depends on the quotient values, only
on the fact that this step raises nothing beyond `sample` itself. -/
noncomputable def pickNewCluster (r : ℕ) (p : List EReal) : Except FitErr ℕ :=
  sample r (p.map (fun pp => pp / p.sum))

/-- Lines 81-126, one document of a sweep: read `z_old = d_z[i]`, remove the
document from its cluster, compute the weight vector from the updated
statistics, normalize and draw `z_new`, record whether the document moved,
then add the document to cluster `z_new` and write `d_z[i] = z_new`. -/
noncomputable def docStep (r : ℕ) (D K : ℕ) (alpha beta : ℝ) (V : ℕ)
    (st : FitState) (i : ℕ) (doc : List ℕ) : Except FitErr (FitState × Bool) :=
  let z_old := st.d_z.getD i 0
  let st1 := statsRemove st doc z_old
  let p := computeP D K alpha beta V st1 doc
  match pickNewCluster r p with
  | .error e => .error e
  | .ok z_new =>
      let st2 := statsAdd st1 doc z_new
      .ok ({ st2 with d_z := st2.d_z.set i z_new }, decide (z_new ≠ z_old))

/-- Lines 59-62: `d_z`, `m_z`, `n_z`, `n_z_w` before the initialization pass. -/
def startState (K : ℕ) : FitState :=
  ⟨[], List.replicate K 0, List.replicate K 0, List.replicate K ([] : WMap)⟩

/-- Lines 64-76, the initialization pass: for each document draw a uniform
cluster, record it in `d_z` and add the document's statistics.  The source
preallocates `d_z = [None]*D` and assigns `d_z[i] = z`; since documents are
visited in order, this is the same as appending.  The second component threads
the position in the random stream. -/
noncomputable def runInit (rng : ℕ → ℕ) (K : ℕ) :
    List (List ℕ) → FitState × ℕ → Except FitErr (FitState × ℕ)
  | [], acc => .ok acc
  | doc :: rest, (st, t) =>
      match sample (rng t) (uniformP K) with
      | .error e => .error e
      | .ok z =>
          let st' := statsAdd st doc z
          runInit rng K rest ({ st' with d_z := st'.d_z ++ [z] }, t + 1)

/-- Lines 81-126, one full sweep: `for i, doc in enumerate(docs)` with the
enumeration index threaded explicitly; the third accumulator component is
`total_transfers`. -/
noncomputable def runDocs (rng : ℕ → ℕ) (D K : ℕ) (alpha beta : ℝ) (V : ℕ) :
    List (List ℕ) → ℕ → FitState × ℕ × ℕ → Except FitErr (FitState × ℕ × ℕ)
  | [], _, acc => .ok acc
  | doc :: rest, i, (st, t, tr) =>
      match docStep (rng t) D K alpha beta V st i doc with
      | .error e => .error e
      | .ok (st', mv) =>
          runDocs rng D K alpha beta V rest (i + 1) (st', t + 1, tr + if mv then 1 else 0)

/-- Line 128: the count of populated clusters,
`sum([1 for v in m_z if v > 0])`. -/
def populated (st : FitState) : ℕ :=
  (st.m_z.filter (fun v => decide (0 < v))).length

/-- Lines 78-128, the sweep loop over `range(n_iters)`: each iteration runs a
sweep over all documents starting at enumeration index 0 with a fresh transfer
counter, then emits the progress event
`(stage, total_transfers, populated clusters)` (the `print` of line 127). -/
noncomputable def runIters (rng : ℕ → ℕ) (K : ℕ) (alpha beta : ℝ) (V : ℕ)
    (docs : List (List ℕ)) :
    List ℕ → FitState × ℕ × List (ℕ × ℕ × ℕ) →
    Except FitErr (FitState × ℕ × List (ℕ × ℕ × ℕ))
  | [], acc => .ok acc
  | it :: rest, (st, t, evs) =>
      match runDocs rng docs.length K alpha beta V docs 0 (st, t, 0) with
      | .error e => .error e
      | .ok (st', t', tr) =>
          runIters rng K alpha beta V docs rest (st', t', evs ++ [(it, tr, populated st')])

/-- The method `fit(docs, V)` (lines 48-129): initialization pass, `n_iters` sweeps with
one progress event per sweep, returning the assignment vector.  `rng` is the
external random stream, consumed one draw per `_sample` call. -/
noncomputable def fit (rng : ℕ → ℕ) (K : ℕ) (alpha beta : ℝ) (n_iters : ℕ)
    (docs : List (List ℕ)) (V : ℕ) :
    Except FitErr (List ℕ × List (ℕ × ℕ × ℕ)) :=
  match runInit rng K docs (startState K, 0) with
  | .error e => .error e
  | .ok (st0, t0) =>
      match runIters rng K alpha beta V docs (List.range n_iters) (st0, t0, []) with
      | .error e => .error e
      | .ok (st, _, evs) => .ok (st.d_z, evs)

/-- Modelled from the spec (refinement comparison for the numerator claim):
the incremental Pólya-urn numerator, the product over the document's token
occurrences, in document order, of `wordCount[label][token] + beta` where each
occurrence sees the count already incremented by the document's earlier
occurrences of the same token. -/
def specNumerIncr (d : WMap) (beta : ℝ) : List ℕ → ℝ
  | [] => 1
  | w :: ws => ((dictGetD d w 0 : ℝ) + beta) * specNumerIncr (addWord d w) beta ws

/-- Modelled from the spec (refinement comparison for the denominator claim):
the linear sum whose addends range over position indices `j = 0 … L-1` and
equal `n[label] + V * beta + j`. -/
def specDenomSum (n : ℤ) (V : ℕ) (beta : ℝ) (L : ℕ) : ℝ :=
  ∑ j ∈ Finset.range L, ((n : ℝ) + (V : ℝ) * beta + (j : ℝ))

/-- Number of documents currently assigned to cluster `z` according to the
assignment vector (the aggregate that `m_z[z]` tracks). -/
def mAgg (docs : List (List ℕ)) (d_z : List ℕ) (z : ℕ) : ℤ :=
  ∑ i ∈ Finset.range docs.length, if d_z.getD i 0 = z then 1 else 0

/-- Total token count of the documents assigned to cluster `z` (the aggregate
that `n_z[z]` tracks). -/
def nAgg (docs : List (List ℕ)) (d_z : List ℕ) (z : ℕ) : ℤ :=
  ∑ i ∈ Finset.range docs.length,
    if d_z.getD i 0 = z then ((docs.getD i []).length : ℤ) else 0

/-- Number of occurrences of word `w` among the documents assigned to cluster
`z` (the aggregate that `n_z_w[z][w]` tracks). -/
def wAgg (docs : List (List ℕ)) (d_z : List ℕ) (z : ℕ) (w : ℕ) : ℤ :=
  ∑ i ∈ Finset.range docs.length,
    if d_z.getD i 0 = z then ((docs.getD i []).count w : ℤ) else 0

/-- Coherence of a `fit` state with the document collection: the statistics
are exactly the aggregates of the current assignment vector, the word-count
dicts have distinct keys, positive entries, and totals matching `n_z`.  This
is the inductive invariant maintained by initialization and by every document
move. -/
structure Coh (K : ℕ) (docs : List (List ℕ)) (st : FitState) : Prop where
  hdz : st.d_z.length = docs.length
  hm : st.m_z.length = K
  hn : st.n_z.length = K
  hw : st.n_z_w.length = K
  hlab : ∀ i < docs.length, st.d_z.getD i 0 < K
  hmv : ∀ z < K, st.m_z.getD z 0 = mAgg docs st.d_z z
  hnv : ∀ z < K, st.n_z.getD z 0 = nAgg docs st.d_z z
  hwv : ∀ z < K, ∀ w, dictGetD (st.n_z_w.getD z []) w 0 = wAgg docs st.d_z z w
  hnd : ∀ z < K, keysND (st.n_z_w.getD z [])
  hpos : ∀ z < K, mapPos (st.n_z_w.getD z [])
  hsum : ∀ z < K, wsum (st.n_z_w.getD z []) = st.n_z.getD z 0

/-- The invariants stated by the spec: the per-cluster document counts sum to
the number of documents, the per-cluster token totals sum to the total corpus
length, each word-count dict totals to `n_z`, and no stored word count is
nonpositive. -/
def InvC5 (K : ℕ) (docs : List (List ℕ)) (st : FitState) : Prop :=
  st.m_z.sum = (docs.length : ℤ) ∧
  st.n_z.sum = (docs.map (fun doc => (doc.length : ℤ))).sum ∧
  (∀ z < K, wsum (st.n_z_w.getD z []) = st.n_z.getD z 0) ∧
  (∀ z < K, mapPos (st.n_z_w.getD z []))

/-- The states of `fit`: the state after the initialization pass, and every
state after a completed document move (`docStep`, i.e. remove followed by
re-add) of any sweep.  The random draws are universally quantified, so every
actual run is covered. -/
inductive Reach (K : ℕ) (alpha beta : ℝ) (V : ℕ) (docs : List (List ℕ)) :
    FitState → Prop where
  | init : ∀ (rng : ℕ → ℕ) (st : FitState) (t : ℕ),
      runInit rng K docs (startState K, 0) = .ok (st, t) →
      Reach K alpha beta V docs st
  | step : ∀ (r i : ℕ) (st st' : FitState) (mv : Bool),
      Reach K alpha beta V docs st → i < docs.length →
      docStep r docs.length K alpha beta V st i (docs.getD i []) = .ok (st', mv) →
      Reach K alpha beta V docs st'


/-! ### Lookup lemmas for the dict operations -/

theorem dictLookup_set (w : ℕ) (v : ℤ) (u : ℕ) :
    ∀ d : WMap, dictLookup (dictSet d w v) u = if w = u then some v else dictLookup d u := by
  intro d
  induction d with
  | nil =>
    simp only [dictSet, dictLookup]
  | cons kv rest ih =>
    obtain ⟨k, c⟩ := kv
    by_cases hk : k = w
    · subst hk
      rw [dictSet, if_pos rfl]
      simp only [dictLookup]
      by_cases hu : k = u
      · rw [if_pos hu, if_pos hu]
      · rw [if_neg hu, if_neg hu, if_neg hu]
    · rw [dictSet, if_neg hk]
      simp only [dictLookup]
      by_cases hu : k = u
      · have hwu : ¬ w = u := fun e => hk (by rw [e, hu])
        rw [if_pos hu, if_neg hwu, if_pos hu]
      · rw [if_neg hu, ih, if_neg hu]

theorem dictLookup_del (w u : ℕ) :
    ∀ d : WMap, dictLookup (dictDel d w) u = if w = u then none else dictLookup d u := by
  intro d
  induction d with
  | nil => simp [dictDel, dictLookup]
  | cons kv rest ih =>
    obtain ⟨k, c⟩ := kv
    by_cases hk : k = w
    · subst hk
      rw [dictDel, if_pos rfl, ih]
      simp only [dictLookup]
      by_cases hu : k = u
      · rw [if_pos hu, if_pos hu]
      · rw [if_neg hu, if_neg hu, if_neg hu]
    · rw [dictDel, if_neg hk]
      simp only [dictLookup]
      by_cases hu : k = u
      · have hwu : ¬ w = u := fun e => hk (by rw [e, hu])
        rw [if_pos hu, if_neg hwu, if_pos hu]
      · rw [if_neg hu, ih, if_neg hu]

theorem dictGetD_set (d : WMap) (w : ℕ) (v : ℤ) (u : ℕ) :
    dictGetD (dictSet d w v) u 0 = if w = u then v else dictGetD d u 0 := by
  unfold dictGetD
  rw [dictLookup_set]
  by_cases hu : w = u
  · rw [if_pos hu, if_pos hu, Option.getD_some]
  · rw [if_neg hu, if_neg hu]

theorem dictLookup_none_getD (d : WMap) (w : ℕ) (h : dictLookup d w = none) :
    dictGetD d w 0 = 0 := by
  unfold dictGetD; rw [h]; rfl

theorem dictLookup_some_getD (d : WMap) (w : ℕ) (c : ℤ) (h : dictLookup d w = some c) :
    dictGetD d w 0 = c := by
  unfold dictGetD; rw [h]; rfl

theorem dictLookup_addWord (d : WMap) (w u : ℕ) :
    dictLookup (addWord d w) u =
      if w = u then some (dictGetD d w 0 + 1) else dictLookup d u := by
  unfold addWord
  by_cases h : dictContains d w
  · rw [if_pos h, dictLookup_set]
  · rw [if_neg h]
    have hnone : dictLookup d w = none := by
      unfold dictContains at h
      exact Option.not_isSome_iff_eq_none.mp (by simpa using h)
    have h0 : dictGetD (dictSet d w 0) w 0 = 0 := by
      rw [dictGetD_set, if_pos rfl]
    rw [dictLookup_set, h0, dictLookup_none_getD d w hnone]
    by_cases hu : w = u
    · rw [if_pos hu, if_pos hu]
    · rw [if_neg hu, if_neg hu, dictLookup_set, if_neg hu]

theorem dictLookup_removeWord (d : WMap) (w u : ℕ) :
    dictLookup (removeWord d w) u =
      if w = u then
        (if dictGetD d w 0 - 1 = 0 then none else some (dictGetD d w 0 - 1))
      else dictLookup d u := by
  have hget : dictGetD (dictSet d w (dictGetD d w 0 - 1)) w 0 = dictGetD d w 0 - 1 := by
    rw [dictGetD_set, if_pos rfl]
  show dictLookup
      (if dictGetD (dictSet d w (dictGetD d w 0 - 1)) w 0 = 0 then
        dictDel (dictSet d w (dictGetD d w 0 - 1)) w
      else dictSet d w (dictGetD d w 0 - 1)) u = _
  rw [hget]
  by_cases hz : dictGetD d w 0 - 1 = 0
  · rw [if_pos hz, dictLookup_del, dictLookup_set]
    by_cases hu : w = u
    · rw [if_pos hu, if_pos hu, if_pos hz]
    · rw [if_neg hu, if_neg hu, if_neg hu]
  · rw [if_neg hz, dictLookup_set]
    by_cases hu : w = u
    · rw [if_pos hu, if_pos hu, if_neg hz]
    · rw [if_neg hu, if_neg hu]

theorem dictGetD_addWord (d : WMap) (w u : ℕ) :
    dictGetD (addWord d w) u 0 = dictGetD d u 0 + if w = u then 1 else 0 := by
  unfold dictGetD
  rw [dictLookup_addWord]
  by_cases hu : w = u
  · subst hu
    rw [if_pos rfl, if_pos rfl, Option.getD_some]
    rfl
  · rw [if_neg hu, if_neg hu, add_zero]

theorem dictGetD_removeWord (d : WMap) (w u : ℕ) :
    dictGetD (removeWord d w) u 0 = dictGetD d u 0 - if w = u then 1 else 0 := by
  unfold dictGetD
  rw [dictLookup_removeWord]
  by_cases hu : w = u
  · subst hu
    rw [if_pos rfl, if_pos rfl]
    by_cases hz : (dictLookup d w).getD 0 - 1 = 0
    · unfold dictGetD at hz ⊢
      rw [if_pos (by exact hz), Option.getD_none, hz]
    · unfold dictGetD at hz ⊢
      rw [if_neg (by exact hz), Option.getD_some]
  · rw [if_neg hu, if_neg hu, sub_zero]

/-! ### Membership, keys, positivity and sum lemmas -/

theorem dictLookup_mem : ∀ (d : WMap) (a : ℕ) (c : ℤ), dictLookup d a = some c → (a, c) ∈ d := by
  intro d
  induction d with
  | nil => intro a c h; exact absurd h (by simp [dictLookup])
  | cons kv rest ih =>
    intro a c h
    obtain ⟨k, v⟩ := kv
    rw [dictLookup] at h
    by_cases hk : k = a
    · rw [if_pos hk] at h
      subst hk
      obtain rfl : v = c := by injection h
      exact List.mem_cons_self _ _
    · rw [if_neg hk] at h
      exact List.mem_cons_of_mem _ (ih a c h)

theorem mem_keys_of_mem (d : WMap) (p : ℕ × ℤ) (h : p ∈ d) : p.1 ∈ d.map Prod.fst :=
  List.mem_map_of_mem Prod.fst h

theorem dictLookup_none_of_not_mem_keys : ∀ (d : WMap) (a : ℕ),
    a ∉ d.map Prod.fst → dictLookup d a = none := by
  intro d
  induction d with
  | nil => intro a _; rfl
  | cons kv rest ih =>
    intro a h
    obtain ⟨k, v⟩ := kv
    simp only [List.map_cons, List.mem_cons] at h
    push_neg at h
    rw [dictLookup, if_neg (fun e => h.1 e.symm)]
    exact ih a h.2

theorem getD_nonneg_of_pos (d : WMap) (w : ℕ) (hp : mapPos d) : 0 ≤ dictGetD d w 0 := by
  unfold dictGetD
  cases h : dictLookup d w with
  | none => simp
  | some c =>
    have := hp (w, c) (dictLookup_mem d w c h)
    simpa using le_trans zero_le_one this

theorem getD_pos_lookup (d : WMap) (w : ℕ) (h : 1 ≤ dictGetD d w 0) :
    dictLookup d w = some (dictGetD d w 0) := by
  unfold dictGetD at h ⊢
  cases hl : dictLookup d w with
  | none => rw [hl] at h; simp at h
  | some c => simp

theorem mem_set : ∀ (d : WMap) (w : ℕ) (v : ℤ) (p : ℕ × ℤ), p ∈ dictSet d w v →
    p ∈ d ∨ p = (w, v) := by
  intro d
  induction d with
  | nil =>
    intro w v p h
    simp only [dictSet, List.mem_singleton] at h
    exact Or.inr h
  | cons kv rest ih =>
    intro w v p h
    obtain ⟨k, c⟩ := kv
    by_cases hk : k = w
    · rw [dictSet, if_pos hk] at h
      rcases List.mem_cons.mp h with h | h
      · exact Or.inr h
      · exact Or.inl (List.mem_cons_of_mem _ h)
    · rw [dictSet, if_neg hk] at h
      rcases List.mem_cons.mp h with h | h
      · exact Or.inl (h ▸ List.mem_cons_self _ _)
      · rcases ih w v p h with h | h
        · exact Or.inl (List.mem_cons_of_mem _ h)
        · exact Or.inr h

theorem mem_set_nodup : ∀ (d : WMap) (w : ℕ) (v : ℤ) (p : ℕ × ℤ), keysND d →
    p ∈ dictSet d w v → (p ∈ d ∧ p.1 ≠ w) ∨ p = (w, v) := by
  intro d
  induction d with
  | nil =>
    intro w v p _ h
    simp only [dictSet, List.mem_singleton] at h
    exact Or.inr h
  | cons kv rest ih =>
    intro w v p hnd h
    obtain ⟨k, c⟩ := kv
    have hnd' : keysND rest := (List.nodup_cons.mp hnd).2
    have hknotin : k ∉ rest.map Prod.fst := (List.nodup_cons.mp hnd).1
    by_cases hk : k = w
    · subst hk
      rw [dictSet, if_pos rfl] at h
      rcases List.mem_cons.mp h with h | h
      · exact Or.inr h
      · refine Or.inl ⟨List.mem_cons_of_mem _ h, fun e => hknotin ?_⟩
        exact e ▸ mem_keys_of_mem rest p h
    · rw [dictSet, if_neg hk] at h
      rcases List.mem_cons.mp h with h | h
      · exact Or.inl ⟨h ▸ List.mem_cons_self _ _, by rw [h]; exact hk⟩
      · rcases ih w v p hnd' h with ⟨h1, h2⟩ | h
        · exact Or.inl ⟨List.mem_cons_of_mem _ h1, h2⟩
        · exact Or.inr h

theorem mem_del : ∀ (d : WMap) (w : ℕ) (p : ℕ × ℤ), p ∈ dictDel d w →
    p ∈ d ∧ p.1 ≠ w := by
  intro d
  induction d with
  | nil => intro w p h; exact absurd h (by simp [dictDel])
  | cons kv rest ih =>
    intro w p h
    obtain ⟨k, c⟩ := kv
    by_cases hk : k = w
    · rw [dictDel, if_pos hk] at h
      obtain ⟨h1, h2⟩ := ih w p h
      exact ⟨List.mem_cons_of_mem _ h1, h2⟩
    · rw [dictDel, if_neg hk] at h
      rcases List.mem_cons.mp h with h | h
      · exact ⟨h ▸ List.mem_cons_self _ _, by rw [h]; exact hk⟩
      · obtain ⟨h1, h2⟩ := ih w p h
        exact ⟨List.mem_cons_of_mem _ h1, h2⟩

theorem keysND_set : ∀ (d : WMap) (w : ℕ) (v : ℤ), keysND d → keysND (dictSet d w v) := by
  intro d
  induction d with
  | nil => intro w v _; simp [dictSet, keysND]
  | cons kv rest ih =>
    intro w v hnd
    obtain ⟨k, c⟩ := kv
    obtain ⟨hk1, hk2⟩ := List.nodup_cons.mp hnd
    by_cases hk : k = w
    · subst hk
      rw [dictSet, if_pos rfl]
      exact List.nodup_cons.mpr ⟨hk1, hk2⟩
    · rw [dictSet, if_neg hk]
      refine List.nodup_cons.mpr ⟨?_, ih w v hk2⟩
      intro hmem
      rcases List.mem_map.mp hmem with ⟨p, hp, hpk⟩
      rcases mem_set rest w v p hp with h | h
      · exact hk1 (hpk ▸ List.mem_map_of_mem Prod.fst h)
      · refine hk ?_
        have hpk' : p.1 = k := by simpa using hpk
        rw [h] at hpk'
        have hw : w = k := by simpa using hpk'
        exact hw.symm

theorem keysND_del : ∀ (d : WMap) (w : ℕ), keysND d → keysND (dictDel d w) := by
  intro d
  induction d with
  | nil => intro w _; simp [dictDel, keysND]
  | cons kv rest ih =>
    intro w hnd
    obtain ⟨k, c⟩ := kv
    obtain ⟨hk1, hk2⟩ := List.nodup_cons.mp hnd
    by_cases hk : k = w
    · rw [dictDel, if_pos hk]
      exact ih w hk2
    · rw [dictDel, if_neg hk]
      refine List.nodup_cons.mpr ⟨?_, ih w hk2⟩
      intro hmem
      rcases List.mem_map.mp hmem with ⟨p, hp, hpk⟩
      exact hk1 (hpk ▸ List.mem_map_of_mem Prod.fst (mem_del rest w p hp).1)

theorem keysND_addWord (d : WMap) (w : ℕ) (hnd : keysND d) : keysND (addWord d w) := by
  unfold addWord
  by_cases h : dictContains d w
  · rw [if_pos h]; exact keysND_set d w _ hnd
  · rw [if_neg h]; exact keysND_set _ w _ (keysND_set d w 0 hnd)

theorem keysND_removeWord (d : WMap) (w : ℕ) (hnd : keysND d) : keysND (removeWord d w) := by
  unfold removeWord
  show keysND (if dictGetD (dictSet d w (dictGetD d w 0 - 1)) w 0 = 0 then
    dictDel (dictSet d w (dictGetD d w 0 - 1)) w else dictSet d w (dictGetD d w 0 - 1))
  by_cases h : dictGetD (dictSet d w (dictGetD d w 0 - 1)) w 0 = 0
  · rw [if_pos h]; exact keysND_del _ w (keysND_set d w _ hnd)
  · rw [if_neg h]; exact keysND_set d w _ hnd

theorem mapPos_addWord (d : WMap) (w : ℕ) (hnd : keysND d) (hp : mapPos d) :
    mapPos (addWord d w) := by
  unfold addWord
  by_cases h : dictContains d w
  · rw [if_pos h]
    intro p hmem
    rcases mem_set_nodup d w _ p hnd hmem with ⟨h1, _⟩ | h1
    · exact hp p h1
    · rw [h1]
      have := getD_nonneg_of_pos d w hp
      omega
  · rw [if_neg h]
    intro p hmem
    have hnd1 : keysND (dictSet d w 0) := keysND_set d w 0 hnd
    rcases mem_set_nodup (dictSet d w 0) w _ p hnd1 hmem with ⟨h1, h2⟩ | h1
    · rcases mem_set_nodup d w 0 p hnd h1 with ⟨h3, _⟩ | h3
      · exact hp p h3
      · exact absurd (by rw [h3]) h2
    · rw [h1]
      have h0 : dictGetD (dictSet d w 0) w 0 = 0 := by rw [dictGetD_set, if_pos rfl]
      rw [h0]
      omega

theorem mapPos_removeWord (d : WMap) (w : ℕ) (hnd : keysND d) (hp : mapPos d)
    (hge : 1 ≤ dictGetD d w 0) : mapPos (removeWord d w) := by
  unfold removeWord
  show mapPos (if dictGetD (dictSet d w (dictGetD d w 0 - 1)) w 0 = 0 then
    dictDel (dictSet d w (dictGetD d w 0 - 1)) w else dictSet d w (dictGetD d w 0 - 1))
  have hmem : ∀ p ∈ dictSet d w (dictGetD d w 0 - 1), 1 ≤ p.2 ∨ p = (w, dictGetD d w 0 - 1) := by
    intro p hm
    rcases mem_set_nodup d w _ p hnd hm with ⟨h1, _⟩ | h1
    · exact Or.inl (hp p h1)
    · exact Or.inr h1
  by_cases h : dictGetD (dictSet d w (dictGetD d w 0 - 1)) w 0 = 0
  · rw [if_pos h]
    intro p hm
    obtain ⟨h1, h2⟩ := mem_del _ w p hm
    rcases hmem p h1 with h3 | h3
    · exact h3
    · exact absurd (by rw [h3]) h2
  · rw [if_neg h]
    intro p hm
    rcases hmem p hm with h3 | h3
    · exact h3
    · rw [dictGetD_set, if_pos rfl] at h
      rw [h3]
      omega

theorem mapPos_docAddWords : ∀ (doc : List ℕ) (d : WMap), keysND d → mapPos d →
    keysND (docAddWords d doc) ∧ mapPos (docAddWords d doc) := by
  intro doc
  induction doc with
  | nil => intro d hnd hp; exact ⟨hnd, hp⟩
  | cons x xs ih =>
    intro d hnd hp
    exact ih (addWord d x) (keysND_addWord d x hnd) (mapPos_addWord d x hnd hp)

theorem mapPos_docRemoveWords : ∀ (doc : List ℕ) (d : WMap), keysND d → mapPos d →
    (∀ w, (doc.count w : ℤ) ≤ dictGetD d w 0) →
    keysND (docRemoveWords d doc) ∧ mapPos (docRemoveWords d doc) := by
  intro doc
  induction doc with
  | nil => intro d hnd hp _; exact ⟨hnd, hp⟩
  | cons x xs ih =>
    intro d hnd hp hcont
    have hx : 1 ≤ dictGetD d x 0 := by
      have := hcont x
      have hc : 1 ≤ ((x :: xs).count x : ℤ) := by
        have := List.count_cons_self x xs
        simp [this]
      omega
    refine ih (removeWord d x) (keysND_removeWord d x hnd)
      (mapPos_removeWord d x hnd hp hx) ?_
    intro w
    rw [dictGetD_removeWord]
    by_cases hw : x = w
    · subst hw
      have h1 : ((x :: xs).count x : ℤ) = (xs.count x : ℤ) + 1 := by
        rw [List.count_cons_self]; push_cast; ring
      have := hcont x
      rw [if_pos rfl]
      omega
    · have h1 : (x :: xs).count w = xs.count w := by
        simp [List.count_cons, Ne.symm hw]
      have := hcont w
      rw [if_neg hw]
      omega

theorem dictGetD_docAddWords : ∀ (doc : List ℕ) (d : WMap) (u : ℕ),
    dictGetD (docAddWords d doc) u 0 = dictGetD d u 0 + (doc.count u : ℤ) := by
  intro doc
  induction doc with
  | nil => intro d u; simp [docAddWords]
  | cons x xs ih =>
    intro d u
    show dictGetD (docAddWords (addWord d x) xs) u 0 = _
    rw [ih, dictGetD_addWord]
    by_cases hu : x = u
    · subst hu
      rw [if_pos rfl, List.count_cons_self]
      push_cast; ring
    · rw [if_neg hu]
      have : (x :: xs).count u = xs.count u := by
        simp [List.count_cons, Ne.symm hu]
      rw [this]
      ring

theorem dictGetD_docRemoveWords : ∀ (doc : List ℕ) (d : WMap) (u : ℕ),
    dictGetD (docRemoveWords d doc) u 0 = dictGetD d u 0 - (doc.count u : ℤ) := by
  intro doc
  induction doc with
  | nil => intro d u; simp [docRemoveWords]
  | cons x xs ih =>
    intro d u
    show dictGetD (docRemoveWords (removeWord d x) xs) u 0 = _
    rw [ih, dictGetD_removeWord]
    by_cases hu : x = u
    · subst hu
      rw [if_pos rfl, List.count_cons_self]
      push_cast; ring
    · rw [if_neg hu]
      have : (x :: xs).count u = xs.count u := by
        simp [List.count_cons, Ne.symm hu]
      rw [this]
      ring

theorem wsum_cons (k : ℕ) (c : ℤ) (rest : WMap) : wsum ((k, c) :: rest) = c + wsum rest := by
  simp [wsum]

theorem wsum_set_absent : ∀ (d : WMap) (w : ℕ) (v : ℤ), dictLookup d w = none →
    wsum (dictSet d w v) = wsum d + v := by
  intro d
  induction d with
  | nil => intro w v _; simp [dictSet, wsum]
  | cons kv rest ih =>
    intro w v h
    obtain ⟨k, c⟩ := kv
    rw [dictLookup] at h
    have hk : ¬ k = w := by
      intro e; rw [if_pos e] at h; exact Option.some_ne_none _ h
    rw [if_neg hk] at h
    rw [dictSet, if_neg hk, wsum_cons, wsum_cons, ih w v h]
    ring

theorem wsum_set_present : ∀ (d : WMap) (w : ℕ) (v c : ℤ), dictLookup d w = some c →
    wsum (dictSet d w v) = wsum d - c + v := by
  intro d
  induction d with
  | nil => intro w v c h; exact absurd h (by simp [dictLookup])
  | cons kv rest ih =>
    intro w v c h
    obtain ⟨k, c'⟩ := kv
    rw [dictLookup] at h
    by_cases hk : k = w
    · rw [if_pos hk] at h
      obtain rfl : c' = c := by injection h
      rw [dictSet, if_pos hk, wsum_cons, wsum_cons]
      ring
    · rw [if_neg hk] at h
      rw [dictSet, if_neg hk, wsum_cons, wsum_cons, ih w v c h]
      ring

theorem dictDel_absent : ∀ (d : WMap) (w : ℕ), dictLookup d w = none → dictDel d w = d := by
  intro d
  induction d with
  | nil => intro w _; rfl
  | cons kv rest ih =>
    intro w h
    obtain ⟨k, c⟩ := kv
    rw [dictLookup] at h
    have hk : ¬ k = w := by
      intro e; rw [if_pos e] at h; exact Option.some_ne_none _ h
    rw [if_neg hk] at h
    rw [dictDel, if_neg hk, ih w h]

theorem wsum_del_present : ∀ (d : WMap) (w : ℕ) (c : ℤ), keysND d →
    dictLookup d w = some c → wsum (dictDel d w) = wsum d - c := by
  intro d
  induction d with
  | nil => intro w c _ h; exact absurd h (by simp [dictLookup])
  | cons kv rest ih =>
    intro w c hnd h
    obtain ⟨k, c'⟩ := kv
    obtain ⟨hk1, hk2⟩ := List.nodup_cons.mp hnd
    rw [dictLookup] at h
    by_cases hk : k = w
    · rw [if_pos hk] at h
      obtain rfl : c' = c := by injection h
      subst hk
      have habs : dictLookup rest k = none := by
        apply dictLookup_none_of_not_mem_keys
        simpa using hk1
      rw [dictDel, if_pos rfl, dictDel_absent rest k habs, wsum_cons]
      ring
    · rw [if_neg hk] at h
      rw [dictDel, if_neg hk, wsum_cons, wsum_cons, ih w c hk2 h]
      ring

theorem wsum_addWord (d : WMap) (w : ℕ) : wsum (addWord d w) = wsum d + 1 := by
  unfold addWord
  by_cases h : dictContains d w
  · rw [if_pos h]
    obtain ⟨c, hc⟩ := Option.isSome_iff_exists.mp (by simpa [dictContains] using h)
    rw [wsum_set_present d w _ c hc, dictLookup_some_getD d w c hc]
    ring
  · rw [if_neg h]
    have hnone : dictLookup d w = none := by
      unfold dictContains at h
      exact Option.not_isSome_iff_eq_none.mp (by simpa using h)
    have h1 : dictLookup (dictSet d w 0) w = some 0 := by
      rw [dictLookup_set, if_pos rfl]
    have h0 : dictGetD (dictSet d w 0) w 0 = 0 := by rw [dictGetD_set, if_pos rfl]
    rw [wsum_set_present _ w _ 0 h1, wsum_set_absent d w 0 hnone, h0]
    ring

theorem wsum_removeWord (d : WMap) (w : ℕ) (hnd : keysND d) :
    wsum (removeWord d w) = wsum d - 1 := by
  unfold removeWord
  show wsum (if dictGetD (dictSet d w (dictGetD d w 0 - 1)) w 0 = 0 then
    dictDel (dictSet d w (dictGetD d w 0 - 1)) w else dictSet d w (dictGetD d w 0 - 1)) = _
  have hget : dictGetD (dictSet d w (dictGetD d w 0 - 1)) w 0 = dictGetD d w 0 - 1 := by
    rw [dictGetD_set, if_pos rfl]
  have hlook : dictLookup (dictSet d w (dictGetD d w 0 - 1)) w = some (dictGetD d w 0 - 1) := by
    rw [dictLookup_set, if_pos rfl]
  have hsum : wsum (dictSet d w (dictGetD d w 0 - 1)) = wsum d - 1 := by
    cases hl : dictLookup d w with
    | none =>
      rw [wsum_set_absent d w _ hl, dictLookup_none_getD d w hl]
      ring
    | some c =>
      rw [wsum_set_present d w _ c hl, dictLookup_some_getD d w c hl]
      ring
  by_cases h : dictGetD (dictSet d w (dictGetD d w 0 - 1)) w 0 = 0
  · rw [if_pos h]
    have hz : dictGetD d w 0 - 1 = 0 := by rw [← hget]; exact h
    rw [wsum_del_present _ w _ (keysND_set d w _ hnd) hlook, hsum, hz]
    ring
  · rw [if_neg h]
    exact hsum

theorem wsum_docAddWords : ∀ (doc : List ℕ) (d : WMap),
    wsum (docAddWords d doc) = wsum d + (doc.length : ℤ) := by
  intro doc
  induction doc with
  | nil => intro d; simp [docAddWords]
  | cons x xs ih =>
    intro d
    show wsum (docAddWords (addWord d x) xs) = _
    rw [ih, wsum_addWord]
    simp
    ring

theorem wsum_docRemoveWords : ∀ (doc : List ℕ) (d : WMap), keysND d →
    wsum (docRemoveWords d doc) = wsum d - (doc.length : ℤ) := by
  intro doc
  induction doc with
  | nil => intro d _; simp [docRemoveWords]
  | cons x xs ih =>
    intro d hnd
    show wsum (docRemoveWords (removeWord d x) xs) = _
    rw [ih (removeWord d x) (keysND_removeWord d x hnd), wsum_removeWord d x hnd]
    simp
    ring

/-! ### Extensional equality of dicts, and add/remove cancellation -/

theorem dictEquiv_getD (d d' : WMap) (h : dictEquiv d d') (w : ℕ) (fb : ℤ) :
    dictGetD d w fb = dictGetD d' w fb := by
  unfold dictGetD
  rw [h w]

theorem addWord_congr (d d' : WMap) (h : dictEquiv d d') (x : ℕ) :
    dictEquiv (addWord d x) (addWord d' x) := by
  intro u
  rw [dictLookup_addWord, dictLookup_addWord, dictEquiv_getD d d' h x 0, h u]

theorem removeWord_congr (d d' : WMap) (h : dictEquiv d d') (x : ℕ) :
    dictEquiv (removeWord d x) (removeWord d' x) := by
  intro u
  rw [dictLookup_removeWord, dictLookup_removeWord, dictEquiv_getD d d' h x 0, h u]

theorem docAddWords_congr : ∀ (xs : List ℕ) (d d' : WMap), dictEquiv d d' →
    dictEquiv (docAddWords d xs) (docAddWords d' xs) := by
  intro xs
  induction xs with
  | nil => intro d d' h; exact h
  | cons x xs ih =>
    intro d d' h
    exact ih (addWord d x) (addWord d' x) (addWord_congr d d' h x)

theorem docRemoveWords_congr : ∀ (xs : List ℕ) (d d' : WMap), dictEquiv d d' →
    dictEquiv (docRemoveWords d xs) (docRemoveWords d' xs) := by
  intro xs
  induction xs with
  | nil => intro d d' h; exact h
  | cons x xs ih =>
    intro d d' h
    exact ih (removeWord d x) (removeWord d' x) (removeWord_congr d d' h x)

theorem mapPos_lookup (d : WMap) (w : ℕ) (c : ℤ) (hp : mapPos d)
    (h : dictLookup d w = some c) : 1 ≤ c := by
  simpa using hp (w, c) (dictLookup_mem d w c h)

theorem removeWord_addWord_cancel (d : WMap) (x : ℕ)
    (hp : ∀ c, dictLookup d x = some c → c ≠ 0) :
    dictEquiv (removeWord (addWord d x) x) d := by
  intro u
  rw [dictLookup_removeWord]
  by_cases hu : x = u
  · subst hu
    rw [if_pos rfl, dictGetD_addWord, if_pos rfl]
    cases hl : dictLookup d x with
    | none =>
      have h0 : dictGetD d x 0 = 0 := dictLookup_none_getD d x hl
      rw [h0]
      norm_num
    | some c =>
      have hc : dictGetD d x 0 = c := dictLookup_some_getD d x c hl
      have hcne : ¬ (c = 0) := hp c hl
      rw [hc]
      rw [if_neg (by omega)]
      congr 1
      omega
  · rw [if_neg hu, dictLookup_addWord, if_neg hu]

theorem dictLookup_docAddWords : ∀ (xs : List ℕ) (d : WMap) (u : ℕ),
    dictLookup (docAddWords d xs) u =
      if xs.count u = 0 then dictLookup d u
      else some (dictGetD d u 0 + (xs.count u : ℤ)) := by
  intro xs
  induction xs with
  | nil => intro d u; simp [docAddWords]
  | cons x xs ih =>
    intro d u
    show dictLookup (docAddWords (addWord d x) xs) u = _
    rw [ih]
    by_cases hu : x = u
    · subst hu
      have hc : (x :: xs).count x = xs.count x + 1 := List.count_cons_self x xs
      by_cases h0 : xs.count x = 0
      · rw [if_pos h0, dictLookup_addWord, if_pos rfl, if_neg (by omega), hc, h0]
        norm_num
      · rw [if_neg h0, dictGetD_addWord, if_pos rfl, if_neg (by omega), hc]
        congr 1
        push_cast
        ring
    · have hc : (x :: xs).count u = xs.count u := by
        simp [List.count_cons, Ne.symm hu]
      rw [hc, dictGetD_addWord, if_neg hu, add_zero, dictLookup_addWord, if_neg hu]

theorem removeWord_docAddWords_comm (xs : List ℕ) (x : ℕ) (d : WMap)
    (hge : 1 ≤ dictGetD d x 0) :
    dictEquiv (removeWord (docAddWords d xs) x) (docAddWords (removeWord d x) xs) := by
  intro u
  by_cases hu : x = u
  · subst hu
    rw [dictLookup_removeWord, if_pos rfl, dictLookup_docAddWords, dictGetD_docAddWords]
    rw [dictLookup_removeWord, if_pos rfl, dictGetD_removeWord, if_pos rfl]
    by_cases h0 : xs.count x = 0
    · rw [h0]
      norm_num
    · have h1 : 1 ≤ (xs.count x : ℤ) := by omega
      rw [if_neg h0, if_neg (show ¬ (dictGetD d x 0 + (xs.count x : ℤ) - 1 = 0) by omega)]
      congr 1
      ring
  · rw [dictLookup_removeWord, if_neg hu, dictLookup_docAddWords, dictLookup_docAddWords]
    rw [dictGetD_removeWord, if_neg hu, sub_zero, dictLookup_removeWord, if_neg hu]

theorem docRemoveWords_docAddWords_cancel : ∀ (doc : List ℕ) (d : WMap), mapPos d →
    dictEquiv (docRemoveWords (docAddWords d doc) doc) d := by
  intro doc
  induction doc with
  | nil => intro d _ u; rfl
  | cons x xs ih =>
    intro d hp u
    show dictLookup (docRemoveWords (removeWord (docAddWords (addWord d x) xs) x) xs) u = _
    have hge : 1 ≤ dictGetD (addWord d x) x 0 := by
      rw [dictGetD_addWord, if_pos rfl]
      have := getD_nonneg_of_pos d x hp
      omega
    have e1 : dictEquiv (removeWord (docAddWords (addWord d x) xs) x)
        (docAddWords (removeWord (addWord d x) x) xs) :=
      removeWord_docAddWords_comm xs x (addWord d x) hge
    have e2 : dictEquiv (removeWord (addWord d x) x) d :=
      removeWord_addWord_cancel d x (fun c hc => by
        have := mapPos_lookup d x c hp hc
        omega)
    have e3 : dictEquiv (docAddWords (removeWord (addWord d x) x) xs) (docAddWords d xs) :=
      docAddWords_congr xs _ d e2
    have e4 : dictEquiv (docRemoveWords (removeWord (docAddWords (addWord d x) xs) x) xs)
        (docRemoveWords (docAddWords d xs) xs) :=
      docRemoveWords_congr xs _ _ (fun w => (e1 w).trans (e3 w))
    exact (e4 u).trans (ih d hp u)

/-! ### List indexing and sum helpers -/

theorem list_getD_set_self {α : Type} : ∀ (l : List α) (i : ℕ) (v d₀ : α), i < l.length →
    (l.set i v).getD i d₀ = v := by
  intro l
  induction l with
  | nil => intro i v d₀ h; simp at h
  | cons a l ih =>
    intro i v d₀ h
    cases i with
    | zero => rfl
    | succ i =>
      simp only [List.set, List.getD_cons_succ]
      exact ih i v d₀ (by simpa using h)

theorem list_getD_set_ne {α : Type} : ∀ (l : List α) (i j : ℕ) (v d₀ : α), ¬ i = j →
    (l.set i v).getD j d₀ = l.getD j d₀ := by
  intro l
  induction l with
  | nil => intro i j v d₀ _; simp
  | cons a l ih =>
    intro i j v d₀ h
    cases i with
    | zero =>
      cases j with
      | zero => exact absurd rfl h
      | succ j => rfl
    | succ i =>
      cases j with
      | zero => rfl
      | succ j =>
        simp only [List.set, List.getD_cons_succ]
        exact ih i j v d₀ (fun e => h (by rw [e]))

theorem list_set_getD_self {α : Type} : ∀ (l : List α) (i : ℕ) (d₀ : α),
    l.set i (l.getD i d₀) = l := by
  intro l
  induction l with
  | nil => intro i d₀; rfl
  | cons a l ih =>
    intro i d₀
    cases i with
    | zero => rfl
    | succ i =>
      simp only [List.set, List.getD_cons_succ]
      rw [ih i d₀]

theorem list_sum_set : ∀ (l : List ℤ) (i : ℕ) (v : ℤ), i < l.length →
    (l.set i v).sum = l.sum - l.getD i 0 + v := by
  intro l
  induction l with
  | nil => intro i v h; simp at h
  | cons a l ih =>
    intro i v h
    cases i with
    | zero =>
      simp only [List.set, List.sum_cons, List.getD_cons_zero]
      ring
    | succ i =>
      simp only [List.set, List.sum_cons, List.getD_cons_succ]
      rw [ih i v (by simpa using h)]
      ring

theorem list_getD_bump (l : List ℤ) (a : ℕ) (δ : ℤ) (ha : a < l.length) (z : ℕ) :
    (l.set a (l.getD a 0 + δ)).getD z 0 = l.getD z 0 + (if a = z then δ else 0) := by
  by_cases hz : a = z
  · subst hz
    rw [list_getD_set_self l a _ 0 ha, if_pos rfl]
  · rw [list_getD_set_ne l a z _ 0 hz, if_neg hz, add_zero]

theorem list_getD_replicate {α : Type} (c d₀ : α) : ∀ (K z : ℕ),
    (List.replicate K c).getD z d₀ = if z < K then c else d₀ := by
  intro K
  induction K with
  | zero => intro z; simp
  | succ K ih =>
    intro z
    cases z with
    | zero => simp [List.replicate]
    | succ z =>
      simp only [List.replicate, List.getD_cons_succ]
      rw [ih z]
      by_cases h : z < K
      · rw [if_pos h, if_pos (by omega)]
      · rw [if_neg h, if_neg (by omega)]

theorem list_set_replicate_self {α : Type} (c : α) : ∀ (K i : ℕ),
    (List.replicate K c).set i c = List.replicate K c := by
  intro K
  induction K with
  | zero => intro i; rfl
  | succ K ih =>
    intro i
    cases i with
    | zero => simp [List.replicate]
    | succ i =>
      simp only [List.replicate, List.set]
      rw [ih i]

theorem foldl_add_map {α : Type} (f : α → ℝ) : ∀ (l : List α) (a : ℝ),
    l.foldl (fun acc x => acc + f x) a = a + (l.map f).sum := by
  intro l
  induction l with
  | nil => intro a; simp
  | cons x xs ih =>
    intro a
    simp only [List.foldl_cons, List.map_cons, List.sum_cons]
    rw [ih (a + f x)]
    ring

theorem foldl_add_range (f : ℕ → ℝ) : ∀ (L : ℕ) (a : ℝ),
    (List.range L).foldl (fun acc j => acc + f j) a = a + ∑ j ∈ Finset.range L, f j := by
  intro L
  induction L with
  | zero => intro a; simp
  | succ L ih =>
    intro a
    rw [List.range_succ, List.foldl_append, ih a, Finset.sum_range_succ, List.foldl_cons,
      List.foldl_nil]
    ring

theorem list_set_oob {α : Type} : ∀ (l : List α) (i : ℕ) (v : α), l.length ≤ i →
    l.set i v = l := by
  intro l
  induction l with
  | nil => intro i v _; rfl
  | cons a l ih =>
    intro i v h
    cases i with
    | zero => simp at h
    | succ i =>
      simp only [List.set]
      rw [ih i v (by simpa using h)]

/-! ### Claim C1: the word-likelihood numerator -/

/-- C1 (counterexample): the claim states that the numerator total entering
`weight[label]` is the incremental Pólya-urn product (repeated tokens seeing
the already-incremented count).  The code instead accumulates the plain linear
sum `lN2 += n_z_w[label].get(word, 0) + beta` (line 105).  With count 1 for
token 0, `beta = 1` and document `[0, 0]`, the code obtains
`(1+1) + (1+1) = 4`, while the claimed product is `(1+1) * (2+1) = 6`. -/
theorem C1_counterexample_numerator :
    lN2loop [(0, 1)] 1 [0, 0] ≠ specNumerIncr [(0, 1)] 1 [0, 0] := by
  have h1 : lN2loop [(0, 1)] 1 [0, 0] = 4 := by
    norm_num [lN2loop, dictGetD, dictLookup]
  have h2 : specNumerIncr [(0, 1)] 1 [0, 0] = 6 := by
    norm_num [specNumerIncr, addWord, dictSet, dictGetD, dictLookup, dictContains]
  rw [h1, h2]
  norm_num

/-- C1 (amended): the word-likelihood numerator total of lines 104-105 is the
plain sum, over the token occurrences of the document counted with
multiplicity, of `n_z_w[label].get(word, 0) + beta`, with no incremental
update for repeated tokens; a single guarded logarithm of this total is then
taken (line 108, see `computeP`). -/
theorem C1_amended_numerator_sum (d : WMap) (beta : ℝ) (doc : List ℕ) :
    lN2loop d beta doc = (doc.map (fun w => (dictGetD d w 0 : ℝ) + beta)).sum := by
  unfold lN2loop
  rw [foldl_add_map (fun w => (dictGetD d w 0 : ℝ) + beta) doc 0]
  ring

/-! ### Claim C2: the word-likelihood denominator -/

/-- C2 (counterexample): the claim states the denominator addends are
`n[label] + V*beta + j` for `j = 0 … len(doc)-1`.  Line 107 of the code
computes `n_z[label] + V * beta + j - 1`.  At `n = 0`, `V = 1`, `beta = 1`,
document length 1, the code's sum is `0` while the claimed sum is `1`. -/
theorem C2_counterexample_denominator :
    lD2loop 0 1 1 1 ≠ specDenomSum 0 1 1 1 := by
  have h1 : lD2loop 0 1 1 1 = 0 := by
    have hr : List.range 1 = [0] := by simp [List.range_succ]
    norm_num [lD2loop, hr]
  have h2 : specDenomSum 0 1 1 1 = 1 := by
    norm_num [specDenomSum]
  rw [h1, h2]
  norm_num

/-- C2 (amended): the word-likelihood denominator of lines 106-107 is the
linear sum over position indices `j = 0 … len(doc)-1` of the addends
`n_z[label] + V*beta + j - 1` (off by one from the claim), after which a
single guarded logarithm of the total is taken (line 109, see `computeP`);
there is no running log-sum-exp. -/
theorem C2_amended_denominator_sum (n : ℤ) (V : ℕ) (beta : ℝ) (L : ℕ) :
    lD2loop n V beta L = ∑ j ∈ Finset.range L, ((n : ℝ) + (V : ℝ) * beta + (j : ℝ) - 1) := by
  unfold lD2loop
  rw [foldl_add_range (fun j => (n : ℝ) + (V : ℝ) * beta + (j : ℝ) - 1) L 0]
  ring

/-! ### Claim C9: add and remove are mutually inverse -/

/-- C9: on any statistics state whose word-count dict for label `z` satisfies
the sparsity invariant (all stored counts positive), performing the add update
and then the remove update for the same document and label restores `d_z`,
`m_z`, `n_z` exactly and restores every word-count dict to one equal as a
Python dict (same keys — including absence of zero-count entries — and same
values; Python dict equality ignores insertion order, which the round trip may
permute when it deletes and re-appends an entry). -/
theorem C9_add_remove_inverse (st : FitState) (doc : List ℕ) (z : ℕ)
    (hpos : mapPos (st.n_z_w.getD z [])) :
    (statsRemove (statsAdd st doc z) doc z).d_z = st.d_z ∧
    (statsRemove (statsAdd st doc z) doc z).m_z = st.m_z ∧
    (statsRemove (statsAdd st doc z) doc z).n_z = st.n_z ∧
    ∀ z' w, dictLookup (((statsRemove (statsAdd st doc z) doc z).n_z_w).getD z' []) w =
      dictLookup ((st.n_z_w).getD z' []) w := by
  refine ⟨rfl, ?_, ?_, ?_⟩
  · show ((st.m_z.set z (st.m_z.getD z 0 + 1)).set z
      ((st.m_z.set z (st.m_z.getD z 0 + 1)).getD z 0 - 1)) = st.m_z
    by_cases hz : z < st.m_z.length
    · rw [list_getD_set_self st.m_z z _ 0 hz, List.set_set]
      have he : st.m_z.getD z 0 + 1 - 1 = st.m_z.getD z 0 := by ring
      rw [he, list_set_getD_self]
    · rw [list_set_oob st.m_z z _ (by omega), list_set_oob st.m_z z _ (by omega)]
  · show ((st.n_z.set z (st.n_z.getD z 0 + (doc.length : ℤ))).set z
      ((st.n_z.set z (st.n_z.getD z 0 + (doc.length : ℤ))).getD z 0 - (doc.length : ℤ))) = st.n_z
    by_cases hz : z < st.n_z.length
    · rw [list_getD_set_self st.n_z z _ 0 hz, List.set_set]
      have he : st.n_z.getD z 0 + (doc.length : ℤ) - (doc.length : ℤ) = st.n_z.getD z 0 := by
        ring
      rw [he, list_set_getD_self]
    · rw [list_set_oob st.n_z z _ (by omega), list_set_oob st.n_z z _ (by omega)]
  · intro z' w
    show dictLookup (((st.n_z_w.set z (docAddWords (st.n_z_w.getD z []) doc)).set z
      (docRemoveWords (((st.n_z_w.set z (docAddWords (st.n_z_w.getD z []) doc)).getD z []))
        doc)).getD z' []) w = _
    by_cases hz : z < st.n_z_w.length
    · rw [list_getD_set_self st.n_z_w z _ [] hz, List.set_set]
      by_cases hz' : z = z'
      · subst hz'
        rw [list_getD_set_self st.n_z_w z _ [] hz]
        exact docRemoveWords_docAddWords_cancel doc (st.n_z_w.getD z []) hpos w
      · rw [list_getD_set_ne st.n_z_w z z' _ [] hz']
    · rw [list_set_oob st.n_z_w z _ (by omega), list_set_oob st.n_z_w z _ (by omega)]

/-- C9 (witness): a concrete application of the inverse property, at a state
with one cluster map `[(0, 2)]`, document `[0, 0]` and label `0`. -/
theorem C9_add_remove_inverse_witness :
    mapPos ((⟨[], [5], [7], [[(0, 2)]]⟩ : FitState).n_z_w.getD 0 []) ∧
    ((statsRemove (statsAdd ⟨[], [5], [7], [[(0, 2)]]⟩ [0, 0] 0) [0, 0] 0).d_z =
      (⟨[], [5], [7], [[(0, 2)]]⟩ : FitState).d_z ∧
    (statsRemove (statsAdd ⟨[], [5], [7], [[(0, 2)]]⟩ [0, 0] 0) [0, 0] 0).m_z =
      (⟨[], [5], [7], [[(0, 2)]]⟩ : FitState).m_z ∧
    (statsRemove (statsAdd ⟨[], [5], [7], [[(0, 2)]]⟩ [0, 0] 0) [0, 0] 0).n_z =
      (⟨[], [5], [7], [[(0, 2)]]⟩ : FitState).n_z ∧
    ∀ z' w, dictLookup (((statsRemove (statsAdd ⟨[], [5], [7], [[(0, 2)]]⟩ [0, 0] 0)
        [0, 0] 0).n_z_w).getD z' []) w =
      dictLookup (((⟨[], [5], [7], [[(0, 2)]]⟩ : FitState).n_z_w).getD z' []) w) :=
  ⟨by unfold mapPos; decide, C9_add_remove_inverse ⟨[], [5], [7], [[(0, 2)]]⟩ [0, 0] 0
    (by unfold mapPos; decide)⟩

/-! ### EReal evaluation helpers for the weight computation -/

theorem list_getD_map_range {α : Type} (f : ℕ → α) (K label : ℕ) (d₀ : α) (h : label < K) :
    ((List.range K).map f).getD label d₀ = f label := by
  rw [List.getD_eq_getElem?_getD, List.getElem?_map, List.getElem?_range h]
  rfl

theorem eexp_bot : eexp ⊥ = 0 := by simp [eexp]

theorem eexp_top : eexp ⊤ = ⊤ := by simp [eexp]

theorem eexp_coe (r : ℝ) : eexp ((r : ℝ) : EReal) = ((Real.exp r : ℝ) : EReal) := by
  simp [eexp, EReal.coe_ne_bot, EReal.coe_ne_top, EReal.toReal_coe]

theorem eexp_pos (x : EReal) (hx : x ≠ ⊥) : 0 < eexp x := by
  induction x using EReal.rec with
  | h_bot => exact absurd rfl hx
  | h_real r =>
    rw [eexp_coe]
    exact_mod_cast Real.exp_pos r
  | h_top =>
    rw [eexp_top]
    exact EReal.zero_lt_top

theorem weight_fin (lN1 lN2 lD2 x : ℝ) (hx : 0 < x) :
    ((((lN1 : EReal) - npLog x) + (lN2 : EReal)) - (lD2 : EReal)) =
      ((lN1 - Real.log x + lN2 - lD2 : ℝ) : EReal) := by
  rw [npLog, if_pos hx]
  norm_cast

theorem weight_inf (lN1 lN2 lD2 x : ℝ) (hx : ¬ 0 < x) :
    ((((lN1 : EReal) - npLog x) + (lN2 : EReal)) - (lD2 : EReal)) = ⊤ := by
  rw [npLog, if_neg hx, EReal.coe_sub_bot, EReal.top_add_coe, EReal.top_sub_coe]

theorem weight_entry_pos (lN1 lN2 lD2 x : ℝ) :
    0 < eexp ((((lN1 : EReal) - npLog x) + (lN2 : EReal)) - (lD2 : EReal)) := by
  by_cases hx : 0 < x
  · rw [weight_fin lN1 lN2 lD2 x hx]
    exact eexp_pos _ (EReal.coe_ne_bot _)
  · rw [weight_inf lN1 lN2 lD2 x hx]
    exact eexp_pos _ (by simp)

theorem computeP_getD (D K : ℕ) (alpha beta : ℝ) (V : ℕ) (st : FitState) (doc : List ℕ)
    (label : ℕ) (h : label < K) :
    (computeP D K alpha beta V st doc).getD label 0 =
      eexp (((((if 0 < (st.m_z.getD label 0 : ℝ) + alpha then
          Real.log ((st.m_z.getD label 0 : ℝ) + alpha) else 0 : ℝ) : EReal) -
        npLog ((D : ℝ) - 1 + (K : ℝ) * alpha)) +
        ((safeLog (lN2loop (st.n_z_w.getD label []) beta doc) : ℝ) : EReal)) -
        ((safeLog (lD2loop (st.n_z.getD label 0) V beta doc.length) : ℝ) : EReal)) := by
  unfold computeP
  rw [list_getD_map_range _ K label 0 h]

theorem list_sum_pos_ereal : ∀ (l : List EReal), (∀ x ∈ l, 0 < x) → l ≠ [] → 0 < l.sum := by
  intro l
  induction l with
  | nil => intro _ h; exact absurd rfl h
  | cons x xs ih =>
    intro hall _
    rw [List.sum_cons]
    cases xs with
    | nil =>
      simpa using hall x (List.mem_cons_self _ _)
    | cons y ys =>
      exact EReal.add_pos (hall x (List.mem_cons_self _ _))
        (ih (fun a ha => hall a (List.mem_cons_of_mem _ ha)) (by simp))

/-! ### Claim C3: the log(0) substitution -/

/-- C3 (counterexample): the claim states that every logarithm in the weight
computation substitutes `0` when its argument is nonpositive, including the
popularity denominator `log(D - 1 + K*alpha)`.  Line 102 applies that
logarithm with no guard.  At `D = 1`, `K = 1`, `alpha = 0` the argument is
`0`; with the claimed substitution the weight would be `exp(0 - 0 + 0 - 0)`,
a finite number, but the code's weight is `exp(-(−inf)) = +inf`. -/
theorem C3_counterexample_lD1 :
    (computeP 1 1 0 1 1 ⟨[], [0], [0], [[]]⟩ []).getD 0 0 = (⊤ : EReal) ∧
    (⊤ : EReal) ≠ ((Real.exp 0 : ℝ) : EReal) := by
  constructor
  · rw [computeP_getD 1 1 0 1 1 ⟨[], [0], [0], [[]]⟩ [] 0 (by norm_num)]
    rw [weight_inf _ _ _ _ (by norm_num), eexp_top]
  · intro h
    exact EReal.coe_ne_top _ h.symm

/-- C3 (amended): the three guarded logarithms (popularity numerator
`m_z[label] + alpha`, word-likelihood numerator total, word-likelihood
denominator total; lines 100, 108, 109) substitute `0` on nonpositive
arguments and therefore always contribute a finite amount, but the popularity
denominator `log(D - 1 + K*alpha)` of line 102 is unguarded: the weight is
infinite exactly when `D - 1 + K*alpha ≤ 0` (with `alpha = 0` this happens at
`D = 1`), and is finite in every other case regardless of how many of the
three guarded sums are nonpositive. -/
theorem C3_amended_guards (D K : ℕ) (alpha beta : ℝ) (V : ℕ) (st : FitState)
    (doc : List ℕ) (label : ℕ) (h : label < K) :
    (computeP D K alpha beta V st doc).getD label 0 = ⊤ ↔
      (D : ℝ) - 1 + (K : ℝ) * alpha ≤ 0 := by
  rw [computeP_getD D K alpha beta V st doc label h]
  by_cases hx : 0 < (D : ℝ) - 1 + (K : ℝ) * alpha
  · rw [weight_fin _ _ _ _ hx, eexp_coe]
    constructor
    · intro hc
      exact absurd hc (EReal.coe_ne_top _)
    · intro hle
      exact absurd hx (not_lt.mpr hle)
  · rw [weight_inf _ _ _ _ hx, eexp_top]
    simp [le_of_not_lt hx]

/-- C3 (witness): the amended characterization applied at `D = 2`, `K = 1`,
`alpha = 0`, where the popularity denominator is `1 > 0` and the weight is
finite. -/
theorem C3_amended_guards_witness :
    0 < 1 ∧
    ((computeP 2 1 0 1 1 ⟨[], [0], [0], [[]]⟩ []).getD 0 0 = ⊤ ↔
      ((2 : ℕ) : ℝ) - 1 + ((1 : ℕ) : ℝ) * 0 ≤ 0) :=
  ⟨Nat.one_pos, C3_amended_guards 2 1 0 1 1 ⟨[], [0], [0], [[]]⟩ [] 0 Nat.one_pos⟩

/-! ### Claim C4: the zero-sum weight vector -/

/-- C4 (counterexample): the claim states that a weight vector summing to zero
makes the run fail at the normalization step with a distinct NumericUnderflow
error.  Lines 112-114 contain no check at all: on the zero-sum vector
`[0, 0]` the normalization divides each entry by the zero sum and hands the
quotients to the sampler, which succeeds.  (No `NumericUnderflow` exists
anywhere in the source; with numpy floats the quotients would be NaN, failing
later inside `multinomial` with a generic `ValueError`, still not at the
normalization step.) -/
theorem C4_counterexample_no_check :
    ([(0 : EReal), 0].sum = 0) ∧ pickNewCluster 0 [0, 0] = Except.ok 0 := by
  constructor
  · simp
  · unfold pickNewCluster sample
    simp

/-- C4 (amended): the normalization step performs no zero-sum detection and
raises no NumericUnderflow; moreover in the exact real arithmetic of the model
the situation cannot arise: every weight `exp(...)` is strictly positive, so
for `K ≥ 1` the weight vector always has strictly positive sum (a zero sum is
purely a floating-point underflow phenomenon). -/
theorem C4_amended_sum_pos (D K : ℕ) (alpha beta : ℝ) (V : ℕ) (st : FitState)
    (doc : List ℕ) (hK : 0 < K) :
    0 < (computeP D K alpha beta V st doc).sum := by
  unfold computeP
  apply list_sum_pos_ereal
  · intro y hy
    rcases List.mem_map.mp hy with ⟨label, _, rfl⟩
    exact weight_entry_pos _ _ _ _
  · simp only [ne_eq, List.map_eq_nil_iff, List.range_eq_nil]
    omega

/-- C4 (witness): the positive-sum property at a concrete configuration. -/
theorem C4_amended_sum_pos_witness :
    0 < 1 ∧ 0 < (computeP 1 1 0 1 1 ⟨[], [0], [0], [[]]⟩ []).sum :=
  ⟨Nat.one_pos, C4_amended_sum_pos 1 1 0 1 1 ⟨[], [0], [0], [[]]⟩ [] Nat.one_pos⟩


/-! ### Claims C6 and C7: configuration validation and the empty corpus -/

theorem filter_replicate_zero_len : ∀ K : ℕ,
    ((List.replicate K (0 : ℤ)).filter (fun v => decide (0 < v))).length = 0 := by
  intro K
  induction K with
  | zero => rfl
  | succ K ih =>
    simp only [List.replicate, List.filter_cons]
    norm_num [ih]

theorem populated_startState (K : ℕ) : populated (startState K) = 0 := by
  unfold populated startState
  exact filter_replicate_zero_len K

theorem runIters_empty_docs (rng : ℕ → ℕ) (K : ℕ) (alpha beta : ℝ) (V : ℕ) :
    ∀ (its : List ℕ) (st : FitState) (t : ℕ) (evs : List (ℕ × ℕ × ℕ)),
    runIters rng K alpha beta V [] its (st, t, evs) =
      .ok (st, t, evs ++ its.map (fun it => (it, 0, populated st))) := by
  intro its
  induction its with
  | nil => intro st t evs; simp [runIters]
  | cons it rest ih =>
    intro st t evs
    have hdocs : runDocs rng (List.length ([] : List (List ℕ))) K alpha beta V [] 0 (st, t, 0) =
        .ok (st, t, 0) := rfl
    rw [runIters, hdocs]
    have := ih st t (evs ++ [(it, 0, populated st)])
    simpa using this

/-- C6 (counterexample): the claim states that every configuration with
`K ≤ 0` is rejected as a configuration error before any statistics are built.
The code performs no validation at all: with `K = 0` and an empty document
collection, `fit` builds its (empty) statistics lists, runs its sweep loop,
prints a progress line and returns successfully. -/
theorem C6_counterexample_K0_accepted :
    fit (fun _ => 0) 0 0 0 1 [] 1 = .ok ([], [(0, 0, 0)]) := by
  have h0 : runInit (fun _ => 0) 0 [] (startState 0, 0) = .ok (startState 0, 0) := rfl
  have h1 : runIters (fun _ => 0) 0 0 0 1 [] (List.range 1) (startState 0, 0, []) =
      .ok (startState 0, 0, [(0, 0, 0)]) := by
    have hr : List.range 1 = [0] := by simp [List.range_succ]
    rw [hr, runIters_empty_docs (fun _ => 0) 0 0 0 1 [0] (startState 0) 0 []]
    simp [populated_startState]
  simp only [fit, h0, h1]
  rfl

/-- C6 (amended): no configuration validation exists.  With `K = 0` and a
nonempty document collection the run fails only once the initialization pass
calls `_sample` on the empty probability vector `[1.0/K for _ in range(0)]`,
raising `IndexError` — after the statistics lists have been allocated, and not
as a configuration error.  (With an empty collection it succeeds outright, and
a negative `n_iters` merely makes `range(n_iters)` empty, yielding zero
sweeps.) -/
theorem C6_amended_fail_in_init (rng : ℕ → ℕ) (alpha beta : ℝ)
    (n_iters : ℕ) (docs : List (List ℕ)) (V : ℕ) (h : docs ≠ []) :
    fit rng 0 alpha beta n_iters docs V = .error .indexError := by
  obtain ⟨d, ds, rfl⟩ := List.exists_cons_of_ne_nil h
  have h1 : uniformP 0 = [] := by simp [uniformP]
  have h2 : sample (rng 0) (uniformP 0) = .error .indexError := by
    rw [h1]; rfl
  have h3 : runInit rng 0 (d :: ds) (startState 0, 0) = .error .indexError := by
    rw [runInit, h2]
  simp only [fit, h3]

/-- C6 (witness): the amended failure mode at the concrete configuration
`K = 0` with one document. -/
theorem C6_amended_fail_in_init_witness :
    ([[0]] : List (List ℕ)) ≠ [] ∧
    fit (fun _ => 0) 0 0 0 0 [[0]] 1 = .error .indexError :=
  ⟨by decide, C6_amended_fail_in_init (fun _ => 0) 0 0 0 [[0]] 1 (by decide)⟩

/-- C7 (counterexample): the claim states that with zero documents no sweep is
performed and no per-sweep progress event is emitted.  The sweep loop of
line 78 runs `n_iters` times regardless: with `n_iters = 1` and an empty
collection, one progress event `(0, 0, 0)` is emitted. -/
theorem C7_counterexample_progress_emitted :
    fit (fun _ => 0) 2 0 0 1 [] 1 = .ok ([], [(0, 0, 0)]) ∧
    ([(0, 0, 0)] : List (ℕ × ℕ × ℕ)) ≠ [] := by
  constructor
  · have h0 : runInit (fun _ => 0) 2 [] (startState 2, 0) = .ok (startState 2, 0) := rfl
    have h1 : runIters (fun _ => 0) 2 0 0 1 [] (List.range 1) (startState 2, 0, []) =
        .ok (startState 2, 0, [(0, 0, 0)]) := by
      have hr : List.range 1 = [0] := by simp [List.range_succ]
      rw [hr, runIters_empty_docs (fun _ => 0) 2 0 0 1 [0] (startState 2) 0 []]
      simp [populated_startState]
    simp only [fit, h0, h1]
    rfl
  · decide

/-- C7 (amended): with zero documents `fit` does return the empty assignment
vector, but the sweep loop still runs `n_iters` times over the empty
collection and emits one progress event per sweep, each reporting zero
transfers and zero populated clusters. -/
theorem C7_amended_empty_docs (rng : ℕ → ℕ) (K : ℕ) (alpha beta : ℝ)
    (n_iters : ℕ) (V : ℕ) :
    fit rng K alpha beta n_iters [] V =
      .ok ([], (List.range n_iters).map (fun it => (it, 0, 0))) := by
  have h0 : runInit rng K [] (startState K, 0) = .ok (startState K, 0) := rfl
  have h1 : runIters rng K alpha beta V [] (List.range n_iters) (startState K, 0, []) =
      .ok (startState K, 0, (List.range n_iters).map (fun it => (it, 0, 0))) := by
    rw [runIters_empty_docs rng K alpha beta V (List.range n_iters) (startState K) 0 []]
    simp [populated_startState]
  simp only [fit, h0, h1]
  rfl

/-! ### Claim C8: K = 1 forces label 0 -/

theorem sample_uniform_one (r : ℕ) : sample r (uniformP 1) = .ok 0 := by
  unfold sample uniformP
  simp [Nat.mod_one]

theorem runInit_K1 (rng : ℕ → ℕ) : ∀ (docs : List (List ℕ)) (st : FitState) (t : ℕ),
    ∃ (st' : FitState) (t' : ℕ), runInit rng 1 docs (st, t) = .ok (st', t') ∧
      st'.d_z = st.d_z ++ List.replicate docs.length 0 := by
  intro docs
  induction docs with
  | nil =>
    intro st t
    exact ⟨st, t, rfl, by simp⟩
  | cons doc rest ih =>
    intro st t
    obtain ⟨st', t', heq, hd⟩ :=
      ih { statsAdd st doc 0 with d_z := (statsAdd st doc 0).d_z ++ [0] } (t + 1)
    refine ⟨st', t', ?_, ?_⟩
    · rw [runInit, sample_uniform_one]
      exact heq
    · rw [hd]
      simp [statsAdd, List.replicate_succ]

theorem computeP_length (D K : ℕ) (alpha beta : ℝ) (V : ℕ) (st : FitState) (doc : List ℕ) :
    (computeP D K alpha beta V st doc).length = K := by
  simp [computeP]

theorem pickNewCluster_K1 (r : ℕ) (p : List EReal) (h : p.length = 1) :
    pickNewCluster r p = .ok 0 := by
  unfold pickNewCluster sample
  simp [h, Nat.mod_one]

theorem docStep_K1 (r D : ℕ) (alpha beta : ℝ) (V : ℕ) (st : FitState) (i : ℕ)
    (doc : List ℕ) :
    ∃ (st' : FitState) (mv : Bool), docStep r D 1 alpha beta V st i doc = .ok (st', mv) ∧
      st'.d_z = st.d_z.set i 0 := by
  have hp := pickNewCluster_K1 r
    (computeP D 1 alpha beta V (statsRemove st doc (st.d_z.getD i 0)) doc)
    (computeP_length D 1 alpha beta V _ doc)
  refine ⟨{ statsAdd (statsRemove st doc (st.d_z.getD i 0)) doc 0 with
      d_z := (statsAdd (statsRemove st doc (st.d_z.getD i 0)) doc 0).d_z.set i 0 },
    decide (¬ 0 = st.d_z.getD i 0), ?_, ?_⟩
  · simp only [docStep, hp]
  · simp [statsAdd, statsRemove]

theorem runDocs_K1 (rng : ℕ → ℕ) (D : ℕ) (alpha beta : ℝ) (V : ℕ) :
    ∀ (docs : List (List ℕ)) (i : ℕ) (st : FitState) (t tr : ℕ),
    st.d_z = List.replicate D 0 →
    ∃ st' t' tr', runDocs rng D 1 alpha beta V docs i (st, t, tr) = .ok (st', t', tr') ∧
      st'.d_z = List.replicate D 0 := by
  intro docs
  induction docs with
  | nil =>
    intro i st t tr h
    exact ⟨st, t, tr, rfl, h⟩
  | cons doc rest ih =>
    intro i st t tr h
    obtain ⟨st1, mv, hstep, hd⟩ := docStep_K1 (rng t) D alpha beta V st i doc
    rw [h, list_set_replicate_self] at hd
    obtain ⟨st', t', tr', hrun, hd'⟩ := ih (i + 1) st1 (t + 1) (tr + if mv then 1 else 0) hd
    refine ⟨st', t', tr', ?_, hd'⟩
    rw [runDocs, hstep]
    exact hrun

theorem runIters_K1 (rng : ℕ → ℕ) (alpha beta : ℝ) (V : ℕ) (docs : List (List ℕ)) :
    ∀ (its : List ℕ) (st : FitState) (t : ℕ) (evs : List (ℕ × ℕ × ℕ)),
    st.d_z = List.replicate docs.length 0 →
    ∃ st' t' evs', runIters rng 1 alpha beta V docs its (st, t, evs) = .ok (st', t', evs') ∧
      st'.d_z = List.replicate docs.length 0 := by
  intro its
  induction its with
  | nil =>
    intro st t evs h
    exact ⟨st, t, evs, rfl, h⟩
  | cons it rest ih =>
    intro st t evs h
    obtain ⟨st1, t1, tr1, hrun, hd1⟩ := runDocs_K1 rng docs.length alpha beta V docs 0 st t 0 h
    obtain ⟨st', t', evs', hiter, hd'⟩ :=
      ih st1 t1 (evs ++ [(it, tr1, populated st1)]) hd1
    refine ⟨st', t', evs', ?_, hd'⟩
    rw [runIters, hrun]
    exact hiter

/-- C8: with `K = 1`, every `_sample` call can only return index `0` (the
probability vector has a single entry), so every document receives label 0 at
initialization and at every resampling step, for every random stream, every
`alpha`, `beta`, `V`, `n_iters` and every document collection; the returned
assignment vector is identically zero. -/
theorem C8_K1_all_labels_zero (rng : ℕ → ℕ) (alpha beta : ℝ) (n_iters : ℕ)
    (docs : List (List ℕ)) (V : ℕ) :
    ∃ evs, fit rng 1 alpha beta n_iters docs V =
      .ok (List.replicate docs.length 0, evs) := by
  obtain ⟨st0, t0, hinit, hd0⟩ := runInit_K1 rng docs (startState 1) 0
  have hd0' : st0.d_z = List.replicate docs.length 0 := by
    simpa [startState] using hd0
  obtain ⟨st1, t1, evs, hiters, hd1⟩ :=
    runIters_K1 rng alpha beta V docs (List.range n_iters) st0 t0 [] hd0'
  refine ⟨evs, ?_⟩
  simp only [fit, hinit, hiters, hd1]

/-! ### Aggregate bookkeeping for the coherence invariant -/

theorem sum_range_succ_split (D : ℕ) (F G : ℕ → ℤ) (hFG : ∀ i < D, F i = G i) (c : ℤ)
    (hFD : F D = c) :
    ∑ i ∈ Finset.range (D + 1), F i = (∑ i ∈ Finset.range D, G i) + c := by
  rw [Finset.sum_range_succ, hFD]
  congr 1
  exact Finset.sum_congr rfl fun i hi => hFG i (Finset.mem_range.mp hi)

theorem sum_range_set_split (D i : ℕ) (hi : i < D) (F G : ℕ → ℤ)
    (hFG : ∀ j, ¬ j = i → F j = G j) :
    ∑ j ∈ Finset.range D, F j = (∑ j ∈ Finset.range D, G j) - G i + F i := by
  have hmem : i ∈ Finset.range D := Finset.mem_range.mpr hi
  rw [Finset.sum_eq_sum_diff_singleton_add hmem F,
    Finset.sum_eq_sum_diff_singleton_add hmem G]
  have hc : ∑ j ∈ Finset.range D \ {i}, F j = ∑ j ∈ Finset.range D \ {i}, G j := by
    refine Finset.sum_congr rfl fun j hj => ?_
    have := Finset.mem_sdiff.mp hj
    exact hFG j (by simpa using this.2)
  rw [hc]
  ring

theorem list_sum_range_getD {α : Type} : ∀ (l : List α) (d₀ : α) (f : α → ℤ),
    ∑ i ∈ Finset.range l.length, f (l.getD i d₀) = (l.map f).sum := by
  intro l
  induction l with
  | nil => intro d₀ f; simp
  | cons a l ih =>
    intro d₀ f
    rw [List.length_cons, Finset.sum_range_succ']
    simp only [List.getD_cons_succ, List.getD_cons_zero, List.map_cons, List.sum_cons]
    rw [ih d₀ f]
    ring

theorem mAgg_snoc (docs : List (List ℕ)) (d_z : List ℕ) (doc : List ℕ) (z z' : ℕ)
    (hlen : d_z.length = docs.length) :
    mAgg (docs ++ [doc]) (d_z ++ [z]) z' = mAgg docs d_z z' + (if z = z' then 1 else 0) := by
  unfold mAgg
  rw [List.length_append, List.length_singleton]
  refine sum_range_succ_split docs.length _ _ ?_ _ ?_
  · intro i hi
    rw [List.getD_append _ _ _ _ (by omega)]
  · rw [List.getD_append_right _ _ _ _ (le_of_eq hlen), hlen, Nat.sub_self,
      List.getD_cons_zero]

theorem nAgg_snoc (docs : List (List ℕ)) (d_z : List ℕ) (doc : List ℕ) (z z' : ℕ)
    (hlen : d_z.length = docs.length) :
    nAgg (docs ++ [doc]) (d_z ++ [z]) z' =
      nAgg docs d_z z' + (if z = z' then (doc.length : ℤ) else 0) := by
  unfold nAgg
  rw [List.length_append, List.length_singleton]
  refine sum_range_succ_split docs.length _ _ ?_ _ ?_
  · intro i hi
    rw [List.getD_append _ _ _ _ (by omega), List.getD_append _ _ _ _ (by omega)]
  · rw [List.getD_append_right _ _ _ _ (le_of_eq hlen), hlen, Nat.sub_self,
      List.getD_cons_zero, List.getD_append_right docs [doc] _ _ (le_refl _),
      Nat.sub_self, List.getD_cons_zero]

theorem wAgg_snoc (docs : List (List ℕ)) (d_z : List ℕ) (doc : List ℕ) (z z' w : ℕ)
    (hlen : d_z.length = docs.length) :
    wAgg (docs ++ [doc]) (d_z ++ [z]) z' w =
      wAgg docs d_z z' w + (if z = z' then (doc.count w : ℤ) else 0) := by
  unfold wAgg
  rw [List.length_append, List.length_singleton]
  refine sum_range_succ_split docs.length _ _ ?_ _ ?_
  · intro i hi
    rw [List.getD_append _ _ _ _ (by omega), List.getD_append _ _ _ _ (by omega)]
  · rw [List.getD_append_right _ _ _ _ (le_of_eq hlen), hlen, Nat.sub_self,
      List.getD_cons_zero, List.getD_append_right docs [doc] _ _ (le_refl _),
      Nat.sub_self, List.getD_cons_zero]

theorem mAgg_set (docs : List (List ℕ)) (d_z : List ℕ) (i z_new z' : ℕ)
    (hi : i < docs.length) (hlen : d_z.length = docs.length) :
    mAgg docs (d_z.set i z_new) z' = mAgg docs d_z z'
      - (if d_z.getD i 0 = z' then 1 else 0) + (if z_new = z' then 1 else 0) := by
  unfold mAgg
  have h := sum_range_set_split docs.length i hi
    (fun j => if (d_z.set i z_new).getD j 0 = z' then (1 : ℤ) else 0)
    (fun j => if d_z.getD j 0 = z' then (1 : ℤ) else 0)
    (fun j hj => by
      show (if (d_z.set i z_new).getD j 0 = z' then (1 : ℤ) else 0) =
        (if d_z.getD j 0 = z' then (1 : ℤ) else 0)
      rw [list_getD_set_ne d_z i j z_new 0 (fun e => hj (by rw [e]))])
  simp only [] at h
  rw [h, list_getD_set_self d_z i z_new 0 (by omega)]

theorem nAgg_set (docs : List (List ℕ)) (d_z : List ℕ) (i z_new z' : ℕ)
    (hi : i < docs.length) (hlen : d_z.length = docs.length) :
    nAgg docs (d_z.set i z_new) z' = nAgg docs d_z z'
      - (if d_z.getD i 0 = z' then ((docs.getD i []).length : ℤ) else 0)
      + (if z_new = z' then ((docs.getD i []).length : ℤ) else 0) := by
  unfold nAgg
  have h := sum_range_set_split docs.length i hi
    (fun j => if (d_z.set i z_new).getD j 0 = z' then ((docs.getD j []).length : ℤ) else 0)
    (fun j => if d_z.getD j 0 = z' then ((docs.getD j []).length : ℤ) else 0)
    (fun j hj => by
      show (if (d_z.set i z_new).getD j 0 = z' then ((docs.getD j []).length : ℤ) else 0) =
        (if d_z.getD j 0 = z' then ((docs.getD j []).length : ℤ) else 0)
      rw [list_getD_set_ne d_z i j z_new 0 (fun e => hj (by rw [e]))])
  simp only [] at h
  rw [h, list_getD_set_self d_z i z_new 0 (by omega)]

theorem wAgg_set (docs : List (List ℕ)) (d_z : List ℕ) (i z_new z' w : ℕ)
    (hi : i < docs.length) (hlen : d_z.length = docs.length) :
    wAgg docs (d_z.set i z_new) z' w = wAgg docs d_z z' w
      - (if d_z.getD i 0 = z' then ((docs.getD i []).count w : ℤ) else 0)
      + (if z_new = z' then ((docs.getD i []).count w : ℤ) else 0) := by
  unfold wAgg
  have h := sum_range_set_split docs.length i hi
    (fun j => if (d_z.set i z_new).getD j 0 = z' then ((docs.getD j []).count w : ℤ) else 0)
    (fun j => if d_z.getD j 0 = z' then ((docs.getD j []).count w : ℤ) else 0)
    (fun j hj => by
      show (if (d_z.set i z_new).getD j 0 = z' then ((docs.getD j []).count w : ℤ) else 0) =
        (if d_z.getD j 0 = z' then ((docs.getD j []).count w : ℤ) else 0)
      rw [list_getD_set_ne d_z i j z_new 0 (fun e => hj (by rw [e]))])
  simp only [] at h
  rw [h, list_getD_set_self d_z i z_new 0 (by omega)]

theorem single_le_sum_int (s : Finset ℕ) (f : ℕ → ℤ) (h0 : ∀ j ∈ s, 0 ≤ f j)
    (i : ℕ) (hi : i ∈ s) : f i ≤ ∑ j ∈ s, f j :=
  Finset.single_le_sum h0 hi

theorem wAgg_ge_count (docs : List (List ℕ)) (d_z : List ℕ) (i : ℕ)
    (hi : i < docs.length) (w : ℕ) :
    ((docs.getD i []).count w : ℤ) ≤ wAgg docs d_z (d_z.getD i 0) w := by
  unfold wAgg
  have hmem : i ∈ Finset.range docs.length := Finset.mem_range.mpr hi
  have h := single_le_sum_int (Finset.range docs.length)
    (fun j => if d_z.getD j 0 = d_z.getD i 0 then ((docs.getD j []).count w : ℤ) else 0)
    (fun j _ => by
      show (0 : ℤ) ≤ if d_z.getD j 0 = d_z.getD i 0 then ((docs.getD j []).count w : ℤ) else 0
      by_cases hc : d_z.getD j 0 = d_z.getD i 0
      · rw [if_pos hc]; exact Int.natCast_nonneg _
      · rw [if_neg hc])
    i hmem
  simpa using h

theorem sum_mAgg (docs : List (List ℕ)) (d_z : List ℕ) (K : ℕ)
    (hlab : ∀ i < docs.length, d_z.getD i 0 < K) :
    ∑ z ∈ Finset.range K, mAgg docs d_z z = (docs.length : ℤ) := by
  unfold mAgg
  rw [Finset.sum_comm]
  have hinner : ∀ i ∈ Finset.range docs.length,
      (∑ z ∈ Finset.range K, if d_z.getD i 0 = z then (1 : ℤ) else 0) = 1 := by
    intro i hi
    rw [Finset.sum_ite_eq]
    exact if_pos (Finset.mem_range.mpr (hlab i (Finset.mem_range.mp hi)))
  rw [Finset.sum_congr rfl hinner]
  simp

theorem sum_nAgg (docs : List (List ℕ)) (d_z : List ℕ) (K : ℕ)
    (hlab : ∀ i < docs.length, d_z.getD i 0 < K) :
    ∑ z ∈ Finset.range K, nAgg docs d_z z =
      (docs.map (fun doc => (doc.length : ℤ))).sum := by
  unfold nAgg
  rw [Finset.sum_comm]
  have hinner : ∀ i ∈ Finset.range docs.length,
      (∑ z ∈ Finset.range K, if d_z.getD i 0 = z then ((docs.getD i []).length : ℤ) else 0) =
        ((docs.getD i []).length : ℤ) := by
    intro i hi
    rw [Finset.sum_ite_eq]
    exact if_pos (Finset.mem_range.mpr (hlab i (Finset.mem_range.mp hi)))
  rw [Finset.sum_congr rfl hinner]
  exact list_sum_range_getD docs [] (fun doc => (doc.length : ℤ))

theorem list_sum_eq_sum_range_getD (l : List ℤ) :
    l.sum = ∑ i ∈ Finset.range l.length, l.getD i 0 := by
  have := list_sum_range_getD l 0 (fun v => v)
  simpa using this.symm

/-! ### Coherence: establishment and preservation -/

theorem coh_start (K : ℕ) : Coh K [] (startState K) := by
  refine ⟨rfl, ?_, ?_, ?_, ?_, ?_, ?_, ?_, ?_, ?_, ?_⟩
  · simp [startState]
  · simp [startState]
  · simp [startState]
  · intro i hi; simp at hi
  · intro z hz
    show (List.replicate K (0 : ℤ)).getD z 0 = mAgg [] [] z
    rw [list_getD_replicate, if_pos hz]
    simp [mAgg]
  · intro z hz
    show (List.replicate K (0 : ℤ)).getD z 0 = nAgg [] [] z
    rw [list_getD_replicate, if_pos hz]
    simp [nAgg]
  · intro z hz w
    show dictGetD ((List.replicate K ([] : WMap)).getD z []) w 0 = wAgg [] [] z w
    rw [list_getD_replicate, if_pos hz]
    simp [wAgg, dictGetD, dictLookup]
  · intro z hz
    show keysND ((List.replicate K ([] : WMap)).getD z [])
    rw [list_getD_replicate, if_pos hz]
    simp [keysND]
  · intro z hz
    show mapPos ((List.replicate K ([] : WMap)).getD z [])
    rw [list_getD_replicate, if_pos hz]
    intro p hp
    simp at hp
  · intro z hz
    show wsum ((List.replicate K ([] : WMap)).getD z []) =
      (List.replicate K (0 : ℤ)).getD z 0
    rw [list_getD_replicate, if_pos hz, list_getD_replicate, if_pos hz]
    simp [wsum]

theorem coh_statsAdd_snoc (K : ℕ) (docs : List (List ℕ)) (st : FitState) (doc : List ℕ)
    (z : ℕ) (hC : Coh K docs st) (hz : z < K) :
    Coh K (docs ++ [doc]) { statsAdd st doc z with d_z := (statsAdd st doc z).d_z ++ [z] } := by
  have hs : ({ statsAdd st doc z with d_z := (statsAdd st doc z).d_z ++ [z] } : FitState) =
      ⟨st.d_z ++ [z],
       st.m_z.set z (st.m_z.getD z 0 + 1),
       st.n_z.set z (st.n_z.getD z 0 + (doc.length : ℤ)),
       st.n_z_w.set z (docAddWords (st.n_z_w.getD z []) doc)⟩ := rfl
  rw [hs]
  refine ⟨?_, ?_, ?_, ?_, ?_, ?_, ?_, ?_, ?_, ?_, ?_⟩
  · show (st.d_z ++ [z]).length = (docs ++ [doc]).length
    simp [hC.hdz]
  · show (st.m_z.set z (st.m_z.getD z 0 + 1)).length = K
    simp [hC.hm]
  · show (st.n_z.set z (st.n_z.getD z 0 + (doc.length : ℤ))).length = K
    simp [hC.hn]
  · show (st.n_z_w.set z (docAddWords (st.n_z_w.getD z []) doc)).length = K
    simp [hC.hw]
  · intro i hi
    show (st.d_z ++ [z]).getD i 0 < K
    rw [List.length_append, List.length_singleton] at hi
    by_cases hilt : i < docs.length
    · rw [List.getD_append _ _ _ _ (by rw [hC.hdz]; omega)]
      exact hC.hlab i hilt
    · have hieq : i = docs.length := by omega
      subst hieq
      rw [List.getD_append_right _ _ _ _ (le_of_eq hC.hdz), hC.hdz, Nat.sub_self,
        List.getD_cons_zero]
      exact hz
  · intro z' hz'
    show (st.m_z.set z (st.m_z.getD z 0 + 1)).getD z' 0 = mAgg (docs ++ [doc]) (st.d_z ++ [z]) z'
    rw [list_getD_bump st.m_z z 1 (by rw [hC.hm]; exact hz) z',
      mAgg_snoc docs st.d_z doc z z' hC.hdz, hC.hmv z' hz']
  · intro z' hz'
    show (st.n_z.set z (st.n_z.getD z 0 + (doc.length : ℤ))).getD z' 0 =
      nAgg (docs ++ [doc]) (st.d_z ++ [z]) z'
    rw [list_getD_bump st.n_z z (doc.length : ℤ) (by rw [hC.hn]; exact hz) z',
      nAgg_snoc docs st.d_z doc z z' hC.hdz, hC.hnv z' hz']
  · intro z' hz' w
    show dictGetD ((st.n_z_w.set z (docAddWords (st.n_z_w.getD z []) doc)).getD z' []) w 0 =
      wAgg (docs ++ [doc]) (st.d_z ++ [z]) z' w
    rw [wAgg_snoc docs st.d_z doc z z' w hC.hdz]
    by_cases hzz : z = z'
    · subst hzz
      rw [list_getD_set_self st.n_z_w z _ [] (by rw [hC.hw]; exact hz),
        dictGetD_docAddWords doc (st.n_z_w.getD z []) w, hC.hwv z hz' w, if_pos rfl]
    · rw [list_getD_set_ne st.n_z_w z z' _ [] hzz, hC.hwv z' hz' w, if_neg hzz, add_zero]
  · intro z' hz'
    show keysND ((st.n_z_w.set z (docAddWords (st.n_z_w.getD z []) doc)).getD z' [])
    by_cases hzz : z = z'
    · subst hzz
      rw [list_getD_set_self st.n_z_w z _ [] (by rw [hC.hw]; exact hz)]
      exact (mapPos_docAddWords doc (st.n_z_w.getD z []) (hC.hnd z hz') (hC.hpos z hz')).1
    · rw [list_getD_set_ne st.n_z_w z z' _ [] hzz]
      exact hC.hnd z' hz'
  · intro z' hz'
    show mapPos ((st.n_z_w.set z (docAddWords (st.n_z_w.getD z []) doc)).getD z' [])
    by_cases hzz : z = z'
    · subst hzz
      rw [list_getD_set_self st.n_z_w z _ [] (by rw [hC.hw]; exact hz)]
      exact (mapPos_docAddWords doc (st.n_z_w.getD z []) (hC.hnd z hz') (hC.hpos z hz')).2
    · rw [list_getD_set_ne st.n_z_w z z' _ [] hzz]
      exact hC.hpos z' hz'
  · intro z' hz'
    show wsum ((st.n_z_w.set z (docAddWords (st.n_z_w.getD z []) doc)).getD z' []) =
      (st.n_z.set z (st.n_z.getD z 0 + (doc.length : ℤ))).getD z' 0
    rw [list_getD_bump st.n_z z (doc.length : ℤ) (by rw [hC.hn]; exact hz) z']
    by_cases hzz : z = z'
    · subst hzz
      rw [list_getD_set_self st.n_z_w z _ [] (by rw [hC.hw]; exact hz),
        wsum_docAddWords doc (st.n_z_w.getD z []), hC.hsum z hz', if_pos rfl]
    · rw [list_getD_set_ne st.n_z_w z z' _ [] hzz, hC.hsum z' hz', if_neg hzz, add_zero]

theorem sample_ok_lt (r : ℕ) (p : List EReal) (z : ℕ) (h : sample r p = .ok z) :
    z < p.length := by
  unfold sample at h
  by_cases hl : p.length = 0
  · rw [if_pos hl] at h
    exact absurd h (by simp)
  · rw [if_neg hl] at h
    have hz : r % p.length = z := by injection h
    rw [← hz]
    exact Nat.mod_lt r (by omega)

theorem pickNewCluster_ok_lt (r : ℕ) (p : List EReal) (z : ℕ)
    (h : pickNewCluster r p = .ok z) : z < p.length := by
  unfold pickNewCluster at h
  have := sample_ok_lt r _ z h
  simpa using this

theorem coh_move (K : ℕ) (docs : List (List ℕ)) (st : FitState) (i zo zn : ℕ)
    (hC : Coh K docs st) (hi : i < docs.length) (hzo : st.d_z.getD i 0 = zo) (hzn : zn < K) :
    Coh K docs
      { statsAdd (statsRemove st (docs.getD i []) zo) (docs.getD i []) zn with
        d_z := (statsAdd (statsRemove st (docs.getD i []) zo) (docs.getD i []) zn).d_z.set i zn } := by
  have hzoK : zo < K := hzo ▸ hC.hlab i hi
  have hdoc_le : ∀ w, ((docs.getD i []).count w : ℤ) ≤ dictGetD (st.n_z_w.getD zo []) w 0 := by
    intro w
    rw [hC.hwv zo hzoK w]
    have := wAgg_ge_count docs st.d_z i hi w
    rwa [hzo] at this
  have hRposnd := mapPos_docRemoveWords (docs.getD i []) (st.n_z_w.getD zo [])
    (hC.hnd zo hzoK) (hC.hpos zo hzoK) hdoc_le
  have hs : ({ statsAdd (statsRemove st (docs.getD i []) zo) (docs.getD i []) zn with
      d_z := (statsAdd (statsRemove st (docs.getD i []) zo) (docs.getD i []) zn).d_z.set i zn } :
        FitState) =
      ⟨st.d_z.set i zn,
       (st.m_z.set zo (st.m_z.getD zo 0 - 1)).set zn
         ((st.m_z.set zo (st.m_z.getD zo 0 - 1)).getD zn 0 + 1),
       (st.n_z.set zo (st.n_z.getD zo 0 - ((docs.getD i []).length : ℤ))).set zn
         ((st.n_z.set zo (st.n_z.getD zo 0 - ((docs.getD i []).length : ℤ))).getD zn 0 +
           ((docs.getD i []).length : ℤ)),
       (st.n_z_w.set zo (docRemoveWords (st.n_z_w.getD zo []) (docs.getD i []))).set zn
         (docAddWords
           ((st.n_z_w.set zo (docRemoveWords (st.n_z_w.getD zo []) (docs.getD i []))).getD zn [])
           (docs.getD i []))⟩ := rfl
  rw [hs]
  have hm2 : ∀ z', ((st.m_z.set zo (st.m_z.getD zo 0 - 1)).set zn
      ((st.m_z.set zo (st.m_z.getD zo 0 - 1)).getD zn 0 + 1)).getD z' 0 =
      st.m_z.getD z' 0 - (if zo = z' then 1 else 0) + (if zn = z' then 1 else 0) := by
    intro z'
    rw [list_getD_bump (st.m_z.set zo (st.m_z.getD zo 0 - 1)) zn 1
      (by rw [List.length_set, hC.hm]; exact hzn) z']
    have e1 : st.m_z.set zo (st.m_z.getD zo 0 - 1) =
        st.m_z.set zo (st.m_z.getD zo 0 + (-1)) := by rw [sub_eq_add_neg]
    rw [e1, list_getD_bump st.m_z zo (-1) (by rw [hC.hm]; exact hzoK) z']
    split_ifs <;> ring
  have hn2 : ∀ z', ((st.n_z.set zo (st.n_z.getD zo 0 - ((docs.getD i []).length : ℤ))).set zn
      ((st.n_z.set zo (st.n_z.getD zo 0 - ((docs.getD i []).length : ℤ))).getD zn 0 +
        ((docs.getD i []).length : ℤ))).getD z' 0 =
      st.n_z.getD z' 0 - (if zo = z' then ((docs.getD i []).length : ℤ) else 0)
        + (if zn = z' then ((docs.getD i []).length : ℤ) else 0) := by
    intro z'
    rw [list_getD_bump (st.n_z.set zo (st.n_z.getD zo 0 - ((docs.getD i []).length : ℤ))) zn
      ((docs.getD i []).length : ℤ) (by rw [List.length_set, hC.hn]; exact hzn) z']
    have e1 : st.n_z.set zo (st.n_z.getD zo 0 - ((docs.getD i []).length : ℤ)) =
        st.n_z.set zo (st.n_z.getD zo 0 + (-((docs.getD i []).length : ℤ))) := by
      rw [sub_eq_add_neg]
    rw [e1, list_getD_bump st.n_z zo (-((docs.getD i []).length : ℤ))
      (by rw [hC.hn]; exact hzoK) z']
    split_ifs <;> ring
  have hw1getD : ∀ z',
      (st.n_z_w.set zo (docRemoveWords (st.n_z_w.getD zo []) (docs.getD i []))).getD z' [] =
      if zo = z' then docRemoveWords (st.n_z_w.getD zo []) (docs.getD i [])
      else st.n_z_w.getD z' [] := by
    intro z'
    by_cases h : zo = z'
    · subst h
      rw [if_pos rfl, list_getD_set_self _ _ _ _ (by rw [hC.hw]; exact hzoK)]
    · rw [if_neg h, list_getD_set_ne _ _ _ _ _ h]
  have hw2getD : ∀ z',
      ((st.n_z_w.set zo (docRemoveWords (st.n_z_w.getD zo []) (docs.getD i []))).set zn
        (docAddWords
          ((st.n_z_w.set zo (docRemoveWords (st.n_z_w.getD zo []) (docs.getD i []))).getD zn [])
          (docs.getD i []))).getD z' [] =
      if zn = z' then
        docAddWords (if zo = zn then docRemoveWords (st.n_z_w.getD zo []) (docs.getD i [])
          else st.n_z_w.getD zn []) (docs.getD i [])
      else if zo = z' then docRemoveWords (st.n_z_w.getD zo []) (docs.getD i [])
      else st.n_z_w.getD z' [] := by
    intro z'
    by_cases h : zn = z'
    · subst h
      rw [if_pos rfl,
        list_getD_set_self _ _ _ _ (by rw [List.length_set, hC.hw]; exact hzn), hw1getD zn]
    · rw [if_neg h, list_getD_set_ne _ _ _ _ _ h, hw1getD z']
  refine ⟨?_, ?_, ?_, ?_, ?_, ?_, ?_, ?_, ?_, ?_, ?_⟩
  · show (st.d_z.set i zn).length = docs.length
    rw [List.length_set, hC.hdz]
  · show _ = K
    rw [List.length_set, List.length_set, hC.hm]
  · show _ = K
    rw [List.length_set, List.length_set, hC.hn]
  · show _ = K
    rw [List.length_set, List.length_set, hC.hw]
  · intro j hj
    show (st.d_z.set i zn).getD j 0 < K
    by_cases h : i = j
    · subst h
      rw [list_getD_set_self st.d_z i zn 0 (by rw [hC.hdz]; exact hi)]
      exact hzn
    · rw [list_getD_set_ne st.d_z i j zn 0 h]
      exact hC.hlab j hj
  · intro z' hz'
    show _ = mAgg docs (st.d_z.set i zn) z'
    rw [hm2 z', mAgg_set docs st.d_z i zn z' hi hC.hdz, hC.hmv z' hz', hzo]
  · intro z' hz'
    show _ = nAgg docs (st.d_z.set i zn) z'
    rw [hn2 z', nAgg_set docs st.d_z i zn z' hi hC.hdz, hC.hnv z' hz', hzo]
  · intro z' hz' w
    show dictGetD _ w 0 = wAgg docs (st.d_z.set i zn) z' w
    rw [hw2getD z', wAgg_set docs st.d_z i zn z' w hi hC.hdz, hzo]
    by_cases h1 : zn = z'
    · rw [if_pos h1, if_pos h1]
      by_cases h2 : zo = zn
      · have h2' : zo = z' := h2.trans h1
        rw [if_pos h2, if_pos h2', dictGetD_docAddWords, dictGetD_docRemoveWords,
          hC.hwv zo hzoK w, h2']
      · have h2' : ¬ zo = z' := fun e => h2 (e.trans h1.symm)
        rw [if_neg h2, if_neg h2', dictGetD_docAddWords, hC.hwv zn hzn w, h1]
        ring
    · rw [if_neg h1, if_neg h1]
      by_cases h2 : zo = z'
      · rw [if_pos h2, if_pos h2, dictGetD_docRemoveWords, hC.hwv zo hzoK w, h2]
        ring
      · rw [if_neg h2, if_neg h2, hC.hwv z' hz' w]
        ring
  · intro z' hz'
    show keysND _
    rw [hw2getD z']
    by_cases h1 : zn = z'
    · rw [if_pos h1]
      by_cases h2 : zo = zn
      · rw [if_pos h2]
        exact (mapPos_docAddWords _ _ hRposnd.1 hRposnd.2).1
      · rw [if_neg h2]
        exact (mapPos_docAddWords _ _ (hC.hnd zn hzn) (hC.hpos zn hzn)).1
    · rw [if_neg h1]
      by_cases h2 : zo = z'
      · rw [if_pos h2]
        exact hRposnd.1
      · rw [if_neg h2]
        exact hC.hnd z' hz'
  · intro z' hz'
    show mapPos _
    rw [hw2getD z']
    by_cases h1 : zn = z'
    · rw [if_pos h1]
      by_cases h2 : zo = zn
      · rw [if_pos h2]
        exact (mapPos_docAddWords _ _ hRposnd.1 hRposnd.2).2
      · rw [if_neg h2]
        exact (mapPos_docAddWords _ _ (hC.hnd zn hzn) (hC.hpos zn hzn)).2
    · rw [if_neg h1]
      by_cases h2 : zo = z'
      · rw [if_pos h2]
        exact hRposnd.2
      · rw [if_neg h2]
        exact hC.hpos z' hz'
  · intro z' hz'
    show wsum _ = _
    rw [hw2getD z', hn2 z']
    by_cases h1 : zn = z'
    · rw [if_pos h1, if_pos h1]
      by_cases h2 : zo = zn
      · have h2' : zo = z' := h2.trans h1
        rw [if_pos h2, if_pos h2', wsum_docAddWords,
          wsum_docRemoveWords _ _ (hC.hnd zo hzoK), hC.hsum zo hzoK, h2']
      · have h2' : ¬ zo = z' := fun e => h2 (e.trans h1.symm)
        rw [if_neg h2, if_neg h2', wsum_docAddWords, hC.hsum zn hzn, h1]
        ring
    · rw [if_neg h1, if_neg h1]
      by_cases h2 : zo = z'
      · rw [if_pos h2, if_pos h2, wsum_docRemoveWords _ _ (hC.hnd zo hzoK),
          hC.hsum zo hzoK, h2]
        ring
      · rw [if_neg h2, if_neg h2, hC.hsum z' hz']
        ring

theorem coh_docStep (K : ℕ) (alpha beta : ℝ) (V : ℕ) (docs : List (List ℕ))
    (st st' : FitState) (r i : ℕ) (mv : Bool) (hC : Coh K docs st) (hi : i < docs.length)
    (hstep : docStep r docs.length K alpha beta V st i (docs.getD i []) = .ok (st', mv)) :
    Coh K docs st' := by
  simp only [docStep] at hstep
  cases hpk : pickNewCluster r (computeP docs.length K alpha beta V
      (statsRemove st (docs.getD i []) (st.d_z.getD i 0)) (docs.getD i [])) with
  | error e =>
    rw [hpk] at hstep
    exact absurd hstep (by simp)
  | ok z_new =>
    rw [hpk] at hstep
    simp only [Except.ok.injEq, Prod.mk.injEq] at hstep
    obtain ⟨h1, h2⟩ := hstep
    have hznK : z_new < K := by
      have := pickNewCluster_ok_lt r _ z_new hpk
      rwa [computeP_length] at this
    rw [← h1]
    exact coh_move K docs st i (st.d_z.getD i 0) z_new hC hi rfl hznK

theorem coh_runInit (rng : ℕ → ℕ) (K : ℕ) :
    ∀ (rem processed : List (List ℕ)) (st : FitState) (t : ℕ) (out : FitState × ℕ),
    Coh K processed st → runInit rng K rem (st, t) = .ok out →
    Coh K (processed ++ rem) out.1 := by
  intro rem
  induction rem with
  | nil =>
    intro processed st t out hC h
    have hout : (st, t) = out := by simpa [runInit] using h
    rw [← hout]
    simpa using hC
  | cons doc rest ih =>
    intro processed st t out hC h
    cases hsamp : sample (rng t) (uniformP K) with
    | error e =>
      rw [runInit, hsamp] at h
      exact absurd h (by simp)
    | ok z =>
      rw [runInit, hsamp] at h
      have hzK : z < K := by
        have := sample_ok_lt (rng t) (uniformP K) z hsamp
        simpa [uniformP] using this
      have hC' := coh_statsAdd_snoc K processed st doc z hC hzK
      have hres := ih (processed ++ [doc])
        { statsAdd st doc z with d_z := (statsAdd st doc z).d_z ++ [z] } (t + 1) out hC' h
      rwa [List.append_assoc] at hres

theorem coh_reach (K : ℕ) (alpha beta : ℝ) (V : ℕ) (docs : List (List ℕ)) (st : FitState)
    (h : Reach K alpha beta V docs st) : Coh K docs st := by
  induction h with
  | init rng st0 t hrun =>
    have := coh_runInit rng K docs [] (startState K) 0 (st0, t) (coh_start K) hrun
    simpa using this
  | step r i st0 st1 mv hr hi hstep ih =>
    exact coh_docStep K alpha beta V docs st0 st1 r i mv ih hi hstep

theorem coh_inv (K : ℕ) (docs : List (List ℕ)) (st : FitState) (hC : Coh K docs st) :
    InvC5 K docs st := by
  refine ⟨?_, ?_, hC.hsum, hC.hpos⟩
  · rw [list_sum_eq_sum_range_getD st.m_z, hC.hm]
    have hcong : ∀ z ∈ Finset.range K, st.m_z.getD z 0 = mAgg docs st.d_z z := fun z hz =>
      hC.hmv z (Finset.mem_range.mp hz)
    rw [Finset.sum_congr rfl hcong, sum_mAgg docs st.d_z K hC.hlab]
  · rw [list_sum_eq_sum_range_getD st.n_z, hC.hn]
    have hcong : ∀ z ∈ Finset.range K, st.n_z.getD z 0 = nAgg docs st.d_z z := fun z hz =>
      hC.hnv z (Finset.mem_range.mp hz)
    rw [Finset.sum_congr rfl hcong, sum_nAgg docs st.d_z K hC.hlab]

/-- C5: after the initialization pass and after every completed document move
(remove followed by re-add, `docStep`) of every sweep — the states captured by
`Reach`, with the random draws universally quantified — the statistics
satisfy: `Σ_z m_z[z]` equals the number of documents, `Σ_z n_z[z]` equals the
total token count of the corpus, every cluster's word-count dict sums to
`n_z[z]`, and no stored word count is `≤ 0` (zero-count entries having been
deleted). -/
theorem C5_invariants (K : ℕ) (alpha beta : ℝ) (V : ℕ) (docs : List (List ℕ))
    (st : FitState) (h : Reach K alpha beta V docs st) : InvC5 K docs st :=
  coh_inv K docs st (coh_reach K alpha beta V docs st h)

/-- C5 (witness): the invariants hold at the state reached by initializing the
one-document corpus `[[0]]` with `K = 1`. -/
theorem C5_invariants_witness : InvC5 1 [[0]] ⟨[0], [1], [1], [[(0, 1)]]⟩ :=
  C5_invariants 1 0 0 1 [[0]] ⟨[0], [1], [1], [[(0, 1)]]⟩
    (Reach.init (fun _ => 0) ⟨[0], [1], [1], [[(0, 1)]]⟩ 1 rfl)
